import Mathlib

/-!
Shallow embedding of the `fastrouter` Go package (builder, route trie,
matchers) and proofs about its specification claims.

Modelling conventions:
* Go strings are modelled as `List Char` (`Str`); the repository only ever
  compares and slices them byte-wise on ASCII data, where `Char` operations
  coincide with Go's byte operations.
* Go maps (`map[string]http.Handler`, `map[string]*node`, `PathParams`) are
  modelled as association lists with unique keys, in insertion order:
  `m[k]=v` replaces the entry in place or appends, `delete` removes it, and
  lookup scans for the key.  Go's randomized map iteration order is captured
  by relating association lists that hold the same entries in different
  orders (`NodeEquiv` below).
* Handlers are opaque non-nil identifiers (`Nat`); `none` models Go's `nil`
  handler result.  Registration of a `nil` handler is not modelled.
* `strings.ToUpper` is modelled character-wise by `Char.toUpper`, which is
  exactly Go's mapping on ASCII method strings.
* The two error messages of the builder are modelled as the error kinds
  `OutOfOrder` and `AlreadyFinalized`.
* `sort.Slice` inside `Build` is modelled by a by-path insertion sort; on
  route lists that passed the `AddRoute` ordering check (the only lists a
  builder can hold) the routes are already in non-decreasing path order and
  the sort leaves them unchanged, which is proved and used below.
-/

namespace FastRouter

abbrev Str := List Char

abbrev Handler := Nat

/-- Association-list lookup, modelling Go map indexing `m[k]`. -/
def mapGet {α : Type} : List (Str × α) → Str → Option α
  | [], _ => none
  | (k, v) :: rest, key => if k = key then some v else mapGet rest key

/-- Association-list update, modelling Go map assignment `m[k] = v`. -/
def mapSet {α : Type} : List (Str × α) → Str → α → List (Str × α)
  | [], key, v => [(key, v)]
  | (k, w) :: rest, key, v =>
    if k = key then (key, v) :: rest else (k, w) :: mapSet rest key v

/-- Association-list removal, modelling Go `delete(m, k)`. -/
def mapDel {α : Type} : List (Str × α) → Str → List (Str × α)
  | [], _ => []
  | (k, w) :: rest, key => if k = key then rest else (k, w) :: mapDel rest key

/-- `PathParams`: the extracted path-parameter bindings. -/
abbrev PathParams := List (Str × Str)

/-- Go's byte-wise string comparison `a < b`. -/
def strLt : Str → Str → Bool
  | [], [] => false
  | [], _ :: _ => true
  | _ :: _, [] => false
  | a :: as, b :: bs => if a < b then true else if b < a then false else strLt as bs

/-- `strings.ToUpper` on ASCII data. -/
def upperStr (s : Str) : Str := s.map Char.toUpper

/-- `Route` record: method, path, handler. -/
structure Route where
  method : Str
  path : Str
  handler : Handler
deriving DecidableEq

/-- `RouterBuilder`: routes collected so far plus the `built` flag. -/
structure RouterBuilder where
  routes : List Route
  built : Bool
deriving DecidableEq

/-- The two error conditions raised by the builder. -/
inductive RouterErr where
  | AlreadyFinalized
  | OutOfOrder
deriving DecidableEq

/-- `NewRouterBuilder`. -/
def NewRouterBuilder : RouterBuilder := ⟨[], false⟩

/-- `RouterBuilder.AddRoute`: rejects when built, rejects paths strictly below
the previously added path, otherwise appends the route with its method
uppercased. -/
def AddRoute (rb : RouterBuilder) (method path : Str) (handler : Handler) :
    Except RouterErr RouterBuilder :=
  if rb.built then .error .AlreadyFinalized
  else
    match rb.routes.getLast? with
    | some last =>
      if strLt path last.path then .error .OutOfOrder
      else .ok ⟨rb.routes ++ [⟨upperStr method, path, handler⟩], rb.built⟩
    | none => .ok ⟨rb.routes ++ [⟨upperStr method, path, handler⟩], rb.built⟩

/-- Trie node: segment text, per-method handlers, literal children map,
parameter name, parameter/wildcard flags and the wildcard child. -/
inductive Node where
  | mk (segment : Str) (methods : List (Str × Handler))
       (children : List (Str × Node)) (paramName : Str)
       (isParam : Bool) (isWild : Bool) (wildChild : Option Node)

def Node.segment : Node → Str
  | .mk s _ _ _ _ _ _ => s

def Node.methods : Node → List (Str × Handler)
  | .mk _ m _ _ _ _ _ => m

def Node.children : Node → List (Str × Node)
  | .mk _ _ c _ _ _ _ => c

def Node.paramName : Node → Str
  | .mk _ _ _ p _ _ _ => p

def Node.isParam : Node → Bool
  | .mk _ _ _ _ ip _ _ => ip

def Node.isWild : Node → Bool
  | .mk _ _ _ _ _ iw _ => iw

def Node.wildChild : Node → Option Node
  | .mk _ _ _ _ _ _ w => w

def Node.withMethods : Node → List (Str × Handler) → Node
  | .mk s _ c p ip iw w, m => .mk s m c p ip iw w

def Node.withChildren : Node → List (Str × Node) → Node
  | .mk s m _ p ip iw w, c => .mk s m c p ip iw w

def Node.withWild : Node → Option Node → Node
  | .mk s m c p ip iw _, w => .mk s m c p ip iw w

/-- A fresh literal (plain-segment) node. -/
def litNode (seg : Str) : Node := .mk seg [] [] [] false false none

/-- A fresh parameter node for a `:`-prefixed segment. -/
def paramNode (seg : Str) : Node := .mk seg [] [] (seg.drop 1) true false none

/-- The fresh wildcard node. -/
def wildNode : Node := .mk ['*'] [] [] [] false true none

/-- The root node a `Build` starts from. -/
def emptyRoot : Node := .mk [] [] [] [] false false none

/-- The built, immutable `Router`. -/
structure Router where
  root : Node

/-- Path normalization shared by `addRoute` and all matchers: prepend the
separator when the path is empty or does not start with one. -/
def norm (p : Str) : Str :=
  if p = [] ∨ ¬ p.head? = some '/' then '/' :: p else p

/-- `strings.Split(path, "/")`. -/
def splitSlash : Str → List Str
  | [] => [[]]
  | c :: rest =>
    if c = '/' then [] :: splitSlash rest
    else
      match splitSlash rest with
      | [] => [[c]]
      | s :: ss => (c :: s) :: ss

/-- Normalized segment sequence of a path: split on the separator, drop the
empty first chunk, map the root path to the empty sequence. -/
def segsOf (p : Str) : List Str :=
  let q := norm p
  let segments := (splitSlash q).drop 1
  if segments = [[]] then [] else segments

/-- `strings.Join(segments, "/")`. -/
def joinSlash : List Str → Str
  | [] => []
  | [s] => s
  | s :: rest => s ++ '/' :: joinSlash rest

/-- The search `addRoute` performs for an existing parameter child with the
given captured name, by iterating over the children map. -/
def findParamChild : List (Str × Node) → Str → Option (Str × Node)
  | [], _ => none
  | (k, c) :: rest, nm =>
    if c.isParam ∧ c.paramName = nm then some (k, c) else findParamChild rest nm

/-- The segment-consuming loop of `Router.addRoute`: walk/extend the trie
along the segments and record the handler at the final node. -/
def insertNode (n : Node) : List Str → Str → Handler → Node
  | [], M, h => n.withMethods (mapSet n.methods M h)
  | seg :: rest, M, h =>
    if seg = ['*'] then
      n.withWild (some (insertNode (n.wildChild.getD wildNode) rest M h))
    else if seg.head? = some ':' then
      match findParamChild n.children (seg.drop 1) with
      | some kc => n.withChildren (mapSet n.children kc.1 (insertNode kc.2 rest M h))
      | none =>
        n.withChildren (mapSet n.children seg (insertNode (paramNode seg) rest M h))
    else
      match mapGet n.children seg with
      | some c => n.withChildren (mapSet n.children seg (insertNode c rest M h))
      | none =>
        n.withChildren (mapSet n.children seg (insertNode (litNode seg) rest M h))

/-- `Router.addRoute`: normalize and split the path, then insert. -/
def addRoute (n : Node) (r : Route) : Node :=
  insertNode n (segsOf r.path) r.method r.handler

/-- The trie built by inserting the given routes in order into a fresh root. -/
def buildTrie (rs : List Route) : Node := rs.foldl addRoute emptyRoot

/-- One step of the by-path insertion sort modelling `sort.Slice`. -/
def insertSorted (r : Route) : List Route → List Route
  | [] => [r]
  | y :: ys => if strLt y.path r.path then y :: insertSorted r ys else r :: y :: ys

/-- By-path sort modelling the defensive `sort.Slice` inside `Build`; on
lists already in non-decreasing path order (the only lists `AddRoute`
produces) it is the identity (`sortRoutes_eq_of_ordered`). -/
def sortRoutes : List Route → List Route
  | [] => []
  | r :: rest => insertSorted r (sortRoutes rest)

/-- `RouterBuilder.Build`: fails once built, otherwise marks the builder
built, sorts the routes by path and folds them into a fresh trie. -/
def Build (rb : RouterBuilder) : Except RouterErr Router × RouterBuilder :=
  if rb.built then (.error .AlreadyFinalized, rb)
  else
    let sorted := sortRoutes rb.routes
    (.ok ⟨buildTrie sorted⟩, ⟨sorted, true⟩)

/-- The parameter-probing loop shared by `matchNode` and
`matchPathOptimized`: iterate over the children map, and for each parameter
child bind the current segment under its name, run the continuation, and on
failure undo the binding and keep scanning.  The continuation `f` is the
recursive descent into the child with the remaining input. -/
def paramFold (f : Node → PathParams → Option Handler × PathParams) (seg : Str) :
    List (Str × Node) → PathParams → Option Handler × PathParams
  | [], params => (none, params)
  | (_, c) :: rest, params =>
    if c.isParam then
      match f c (mapSet params c.paramName seg) with
      | (some h, p2) => (some h, p2)
      | (none, p2) => paramFold f seg rest (mapDel p2 c.paramName)
    else paramFold f seg rest params

/-- `Router.matchNode`: recursive segment matching.  The bindings map is
threaded through every branch, mirroring the single mutable Go map. -/
def matchNode (n : Node) (segs : List Str) (M : Str) (p : PathParams) :
    Option Handler × PathParams :=
  match segs with
  | [] => (mapGet n.methods M, p)
  | s :: rest =>
    match (match mapGet n.children s with
           | some c => matchNode c rest M p
           | none => (none, p)) with
    | (some h, p') => (some h, p')
    | (none, p1) =>
      match paramFold (fun c q => matchNode c rest M q) s n.children p1 with
      | (some h, p2) => (some h, p2)
      | (none, p2) =>
        match n.wildChild with
        | some w => (mapGet w.methods M, mapSet p2 ['*'] (joinSlash segs))
        | none => (none, p2)

/-- `Router.Match`: normalize, split, and run `matchNode` from the root with
a fresh bindings map; both the handler and the (possibly dirtied) map are
returned. -/
def Match (r : Router) (method path : Str) : Option Handler × PathParams :=
  matchNode r.root (segsOf path) method []

/-- `Router.matchPathOptimized`, the offset-walking matcher.  The `fuel`
argument makes the recursion structural; every recursive call strictly
increases `start`, so `path.length + 1` units of fuel (what `MatchOptimized`
supplies) are never exhausted. -/
def matchPathOptimizedF : Nat → Node → Str → Nat → Str → PathParams →
    Option Handler × PathParams
  | 0, _, _, _, _, p => (none, p)
  | fuel + 1, n, path, start, M, params =>
    if path.length ≤ start then (mapGet n.methods M, params)
    else
      let seg := (path.drop start).takeWhile (fun c => ¬ c = '/')
      let nextStart := min (start + seg.length + 1) path.length
      match (match mapGet n.children seg with
             | some c => matchPathOptimizedF fuel c path nextStart M params
             | none => (none, params)) with
      | (some h, p') => (some h, p')
      | (none, p1) =>
        match paramFold (fun c q => matchPathOptimizedF fuel c path nextStart M q)
            seg n.children p1 with
        | (some h, p2) => (some h, p2)
        | (none, p2) =>
          match n.wildChild with
          | some w =>
            let p3 := if start < path.length then mapSet p2 ['*'] (path.drop start) else p2
            (mapGet w.methods M, p3)
          | none => (none, p2)

/-- `Router.MatchOptimized`: normalize, then walk the path by offsets from
position 1. -/
def MatchOptimized (r : Router) (method path : Str) : Option Handler × PathParams :=
  let q := norm path
  matchPathOptimizedF (q.length + 1) r.root q 1 method []

/-- `Router.matchPathOptimizedStatic`: literal-only descent, no bindings. -/
def matchPathOptimizedStaticF : Nat → Node → Str → Nat → Str → Option Handler
  | 0, _, _, _, _ => none
  | fuel + 1, n, path, start, M =>
    if path.length ≤ start then mapGet n.methods M
    else
      let seg := (path.drop start).takeWhile (fun c => ¬ c = '/')
      let nextStart := min (start + seg.length + 1) path.length
      match mapGet n.children seg with
      | some c =>
        if c.isParam then none else matchPathOptimizedStaticF fuel c path nextStart M
      | none => none

/-- `Router.MatchOptimized2`: scan the queried path for `:`/`*` markers; with
a marker run the offset matcher with a pooled (cleared) bindings map,
returning the map to the pool (observably: an empty map) when no handler is
found; without a marker run the static-only matcher with no bindings. -/
def MatchOptimized2 (r : Router) (method path : Str) : Option Handler × PathParams :=
  let q := norm path
  if (q.drop 1).any (fun c => c == ':' || c == '*') then
    match matchPathOptimizedF (q.length + 1) r.root q 1 method [] with
    | (some h, ps) => (some h, ps)
    | (none, _) => (none, [])
  else
    (matchPathOptimizedStaticF (q.length + 1) r.root q 1 method, [])

/-- `Router.FastMatch` is an alias for `MatchOptimized2`. -/
def FastMatch (r : Router) (method path : Str) : Option Handler × PathParams :=
  MatchOptimized2 r method path

/-- Calling `AddRoute` once per element of a route list, stopping at the
first error. -/
def addRoutes : RouterBuilder → List Route → Except RouterErr RouterBuilder
  | rb, [] => .ok rb
  | rb, r :: rest =>
    match AddRoute rb r.method r.path r.handler with
    | .ok rb2 => addRoutes rb2 rest
    | .error e => .error e

/-- Character list of a Lean string literal, for concrete inputs. -/
def str (s : String) : Str := s.toList

instance exceptDecEq {ε α : Type} [DecidableEq ε] [DecidableEq α] :
    DecidableEq (Except ε α) := fun a b =>
  match a, b with
  | .ok x, .ok y =>
    if h : x = y then .isTrue (by rw [h]) else .isFalse (by simp [h])
  | .error x, .error y =>
    if h : x = y then .isTrue (by rw [h]) else .isFalse (by simp [h])
  | .ok _, .error _ => .isFalse (by simp)
  | .error _, .ok _ => .isFalse (by simp)

/-- Literal-only descent through the children maps: the node reached from
`n` by looking each segment up in the children map of the previous node.
This is the branch `matchNode` tries first at every depth. -/
def findExact : Node → List Str → Option Node
  | n, [] => some n
  | n, s :: rest =>
    match mapGet n.children s with
    | some c => findExact c rest
    | none => none

/-- Handler obtained by literal-only descent followed by a method lookup. -/
def findExactM (n : Node) (ss : List Str) (M : Str) : Option Handler :=
  match findExact n ss with
  | some nd => mapGet nd.methods M
  | none => none

/-- Segment sequences free of the wildcard marker segment. -/
def noStar (ss : List Str) : Prop := ¬ ['*'] ∈ ss

instance noStarDec (ss : List Str) : Decidable (noStar ss) :=
  inferInstanceAs (Decidable (¬ ['*'] ∈ ss))

/-- Route paths in non-decreasing byte-wise order, each also at or above the
optional carried-in previous path: exactly the sequences `AddRoute` accepts
when fed one route at a time. -/
def pathsOrdered : Option Str → List Route → Prop
  | _, [] => True
  | prev, r :: rest =>
    (∀ lp, prev = some lp → strLt r.path lp = false) ∧ pathsOrdered (some r.path) rest

/-- The route as `AddRoute` stores it: method uppercased. -/
def normRoute (r : Route) : Route := ⟨upperStr r.method, r.path, r.handler⟩

/-- The handler of the last route in the list whose uppercased method is `M`
and whose normalized segment sequence is `ss` — the handler that silent
overwriting leaves in the trie. -/
def lastHandlerFor (rs : List Route) (M : Str) (ss : List Str) : Option Handler :=
  rs.foldl
    (fun acc r => if upperStr r.method = M ∧ segsOf r.path = ss then some r.handler else acc)
    none

/-- The handler of the last route in the list whose stored method is `M`
and whose segment sequence is `ss`, for lists of already-normalized routes
(the lists `Build` folds into the trie). -/
def storedHandlerFor (rs : List Route) (M : Str) (ss : List Str) : Option Handler :=
  rs.foldl
    (fun acc r => if r.method = M ∧ segsOf r.path = ss then some r.handler else acc)
    none

/-- Structural invariant of every trie reachable through `addRoute`: a child
is a parameter node exactly when its key starts with `:`, and a parameter
node is keyed by `:` followed by its captured name.  Under this invariant
the by-name search `findParamChild` coincides with a key lookup. -/
inductive WfNode : Node → Prop where
  | mk (n : Node)
      (hkey : ∀ k c, (k, c) ∈ n.children →
        ((c.isParam = true ↔ k.head? = some ':') ∧
         (c.isParam = true → k = ':' :: c.paramName)))
      (hch : ∀ k c, (k, c) ∈ n.children → WfNode c)
      (hw : ∀ w, n.wildChild = some w → WfNode w) : WfNode n

/-- Every method key stored anywhere in the trie is an uppercased string:
the invariant `Build` establishes because `AddRoute` normalizes methods. -/
inductive MethodsUpper : Node → Prop where
  | mk (n : Node)
      (hm : ∀ k h, (k, h) ∈ n.methods → upperStr k = k)
      (hch : ∀ k c, (k, c) ∈ n.children → MethodsUpper c)
      (hw : ∀ w, n.wildChild = some w → MethodsUpper w) : MethodsUpper n

/-!
`NodeEquiv n1 n2` states that `n1` and `n2` hold the same Go maps entry for
entry, allowing the association lists that model them to enumerate the
entries in different orders: Go randomizes map iteration order, so two runs
over one and the same built router observe `NodeEquiv`-related views of it.
`ChildrenRel` relates children lists position by position with equal keys;
composed with a permutation it relates the two map views.
-/
mutual
inductive NodeEquiv : Node → Node → Prop where
  | mk (n1 n2 : Node) (l : List (Str × Node))
      (hseg : n1.segment = n2.segment)
      (hmeth : n1.methods = n2.methods)
      (hpn : n1.paramName = n2.paramName)
      (hip : n1.isParam = n2.isParam)
      (hiw : n1.isWild = n2.isWild)
      (hnd1 : (n1.children.map Prod.fst).Nodup)
      (hnd2 : (n2.children.map Prod.fst).Nodup)
      (hperm : n2.children.Perm l)
      (hrel : ChildrenRel n1.children l)
      (hw : WildRel n1.wildChild n2.wildChild) :
      NodeEquiv n1 n2

inductive ChildrenRel : List (Str × Node) → List (Str × Node) → Prop where
  | nil : ChildrenRel [] []
  | cons {k1 k2 : Str} {c1 c2 : Node} {t1 t2 : List (Str × Node)} :
      k1 = k2 → NodeEquiv c1 c2 → ChildrenRel t1 t2 →
      ChildrenRel ((k1, c1) :: t1) ((k2, c2) :: t2)

inductive WildRel : Option Node → Option Node → Prop where
  | none : WildRel none none
  | some {w1 w2 : Node} : NodeEquiv w1 w2 → WildRel (some w1) (some w2)
end

/-- Tries in which every node owns at most one parameter child — the shape
in which the children-map iteration order cannot influence matching. -/
inductive ParamOk : Node → Prop where
  | mk (n : Node)
      (hcount : (n.children.filter (fun kc => kc.2.isParam)).length ≤ 1)
      (hch : ∀ k c, (k, c) ∈ n.children → ParamOk c)
      (hw : ∀ w, n.wildChild = some w → ParamOk w) : ParamOk n

/-! ### Basic lemmas about the map and string primitives -/

@[simp] theorem mapGet_mapSet_self {α : Type} (l : List (Str × α)) (k : Str) (v : α) :
    mapGet (mapSet l k v) k = some v := by
  induction l with
  | nil => simp [mapSet, mapGet]
  | cons kv rest ih =>
    by_cases hk : kv.1 = k
    · simp [mapSet, hk, mapGet]
    · simpa [mapSet, hk, mapGet] using ih

theorem mapGet_mapSet_ne {α : Type} (l : List (Str × α)) {k k2 : Str} (v : α)
    (hne : ¬ k2 = k) : mapGet (mapSet l k v) k2 = mapGet l k2 := by
  induction l with
  | nil =>
    have hne2 : ¬ k = k2 := fun hq => hne hq.symm
    simp [mapSet, mapGet, hne2]
  | cons kv rest ih =>
    obtain ⟨k1, v1⟩ := kv
    by_cases hk : k1 = k
    · subst hk
      have hne2 : ¬ k1 = k2 := fun hq => hne hq.symm
      simp [mapSet, mapGet, hne2]
    · simp only [mapSet, if_neg hk]
      by_cases hk2 : k1 = k2
      · simp [mapGet, hk2]
      · simp [mapGet, hk2, ih]

theorem mem_of_mapGet_eq_some {α : Type} {l : List (Str × α)} {k : Str} {v : α}
    (h : mapGet l k = some v) : (k, v) ∈ l := by
  induction l with
  | nil => simp [mapGet] at h
  | cons kv rest ih =>
    obtain ⟨k1, v1⟩ := kv
    by_cases hk : k1 = k
    · simp only [mapGet, if_pos hk] at h
      obtain rfl : k1 = k := hk
      obtain rfl : v1 = v := Option.some.inj h
      exact List.mem_cons_self _ _
    · simp only [mapGet, if_neg hk] at h
      exact List.mem_cons_of_mem _ (ih h)

theorem mem_mapSet {α : Type} {l : List (Str × α)} {k k2 : Str} {v v2 : α}
    (h : (k2, v2) ∈ mapSet l k v) : (k2, v2) ∈ l ∨ (k2 = k ∧ v2 = v) := by
  induction l with
  | nil =>
    simp [mapSet] at h
    exact Or.inr h
  | cons kv rest ih =>
    by_cases hk : kv.1 = k
    · simp only [mapSet, if_pos hk, List.mem_cons] at h
      rcases h with h | h
      · exact Or.inr ⟨congrArg Prod.fst h, congrArg Prod.snd h⟩
      · exact Or.inl (List.mem_cons_of_mem _ h)
    · simp only [mapSet, if_neg hk, List.mem_cons] at h
      rcases h with h | h
      · exact Or.inl (h ▸ List.mem_cons_self _ _)
      · rcases ih h with h2 | h2
        · exact Or.inl (List.mem_cons_of_mem _ h2)
        · exact Or.inr h2

theorem strLt_irrefl (s : Str) : strLt s s = false := by
  induction s with
  | nil => rfl
  | cons c rest ih => simp [strLt, ih]

theorem toUpper_toNat_ofNat {n : Nat} (h : n.isValidChar) :
    (Char.ofNat n).toNat = n := by
  unfold Char.ofNat
  rw [dif_pos h]
  unfold Char.ofNatAux Char.toNat
  simp [UInt32.toNat]

theorem toUpper_idem (c : Char) : Char.toUpper (Char.toUpper c) = Char.toUpper c := by
  unfold Char.toUpper
  by_cases h : c.toNat ≥ 97 ∧ c.toNat ≤ 122
  · rw [if_pos h]
    have hv : (c.toNat - 32).isValidChar := by
      left
      omega
    rw [toUpper_toNat_ofNat hv]
    have hno : ¬(c.toNat - 32 ≥ 97 ∧ c.toNat - 32 ≤ 122) := by omega
    rw [if_neg hno]
  · rw [if_neg h, if_neg h]

theorem upperStr_idem (s : Str) : upperStr (upperStr s) = upperStr s := by
  simp [upperStr, toUpper_idem]

/-! ### Claim theorems: builder interface (C7, C8) -/

/-- Claim C7: with an unbuilt builder, `AddRoute` fails with `OutOfOrder`
exactly when the new path compares strictly less, byte-wise, than the
immediately previously added path, whatever the number of routes already
added; a path equal to the previous one is accepted; and every accepted call
appends the route with its method uppercased. -/
theorem addRoute_out_of_order_iff (rb : RouterBuilder) (hb : rb.built = false)
    (m p : Str) (h : Handler) :
    (AddRoute rb m p h = .error .OutOfOrder ↔
      ∃ last, rb.routes.getLast? = some last ∧ strLt p last.path = true) ∧
    (∀ last, rb.routes.getLast? = some last → p = last.path →
      AddRoute rb m p h = .ok ⟨rb.routes ++ [⟨upperStr m, p, h⟩], false⟩) ∧
    (AddRoute rb m p h ≠ .error .OutOfOrder →
      AddRoute rb m p h = .ok ⟨rb.routes ++ [⟨upperStr m, p, h⟩], false⟩) := by
  unfold AddRoute
  rw [hb]
  simp only [Bool.false_eq_true, if_false]
  cases hL : rb.routes.getLast? with
  | none =>
    refine ⟨by simp, by simp, by simp⟩
  | some last =>
    by_cases hlt : strLt p last.path = true
    · refine ⟨by simp [hlt], ?_, by simp [hlt]⟩
      intro last2 hl2 hpe
      have h2 : last2 = last := (Option.some.inj hl2).symm
      rw [h2] at hpe
      rw [hpe, strLt_irrefl] at hlt
      exact absurd hlt (by simp)
    · have hlt2 : strLt p last.path = false := by
        cases hq : strLt p last.path
        · rfl
        · exact absurd hq hlt
      refine ⟨by simp [hlt2], ?_, by simp [hlt2]⟩
      intro _ _ _
      simp [hlt2]

/-- Claim C8: on an unbuilt builder, `Build` succeeds once; on the builder
state it leaves behind, every `AddRoute` call and every further `Build` call
fail with `AlreadyFinalized`. -/
theorem build_one_shot_finalization (rb : RouterBuilder) (hb : rb.built = false)
    (m p : Str) (h : Handler) :
    (Build rb).1 = .ok ⟨buildTrie (sortRoutes rb.routes)⟩ ∧
    AddRoute (Build rb).2 m p h = .error .AlreadyFinalized ∧
    (Build (Build rb).2).1 = .error .AlreadyFinalized := by
  unfold Build AddRoute
  rw [hb]
  simp

/-! ### Claim theorems: concrete divergences and behaviors (C1, C2, C9) -/

/-- Claim C1 (failing-input evidence): on the router built from the single
route `GET /users/:id`, the full matcher `Match` answers the query
`GET /users/123` with the registered handler and the binding `id=123`, while
`MatchOptimized2` (and its alias `FastMatch`) scans the queried path, sees
no `:`/`*` marker, dispatches to the static-only descent, and returns no
handler: the variants are not observably equivalent. -/
theorem fastMatch_misses_param_route :
    (Build ⟨[⟨str "GET", str "/users/:id", 11⟩], false⟩).1.map
        (fun r => Match r (str "GET") (str "/users/123")) =
      .ok (some 11, [(str "id", str "123")]) ∧
    (Build ⟨[⟨str "GET", str "/users/:id", 11⟩], false⟩).1.map
        (fun r => MatchOptimized2 r (str "GET") (str "/users/123")) =
      .ok (none, []) ∧
    (Build ⟨[⟨str "GET", str "/users/:id", 11⟩], false⟩).1.map
        (fun r => FastMatch r (str "GET") (str "/users/123")) =
      .ok (none, []) := by
  refine ⟨by decide, by decide, by decide⟩

/-- Claim C2 (failing-input evidence): on the router built from the single
route `GET /a`, the segment-slice matcher `Match` answers the query path
`/a/` (trailing separator) with no handler, because splitting produces a
final empty segment, while the offset-based `MatchOptimized` reaches the end
of the path after `a` and returns the registered handler: the two matchers
are not observably equivalent. -/
theorem matchOptimized_trailing_slash_divergence :
    (Build ⟨[⟨str "GET", str "/a", 21⟩], false⟩).1.map
        (fun r => Match r (str "GET") (str "/a/")) = .ok (none, []) ∧
    (Build ⟨[⟨str "GET", str "/a", 21⟩], false⟩).1.map
        (fun r => MatchOptimized r (str "GET") (str "/a/")) = .ok (some 21, []) := by
  refine ⟨by decide, by decide⟩

/-- Claim C9: on the router built from `GET /a/:p/c` and `POST /a/b/*`, the
query `GET /a/b/c` first descends the literal `b` branch, probes its
wildcard child, writes the binding for the literal key `*`, fails (the
wildcard node only has a `POST` handler) without undoing that binding, then
succeeds through the parameter sibling — so the returned bindings carry the
spurious `*` entry; and the query `GET /a/b/z` fails everywhere yet returns
a non-empty bindings map holding the leftover `*` entry beside a `nil`
handler. -/
theorem failed_wildcard_probe_keeps_binding :
    (Build ⟨[⟨str "GET", str "/a/:p/c", 4⟩, ⟨str "POST", str "/a/b/*", 5⟩], false⟩).1.map
        (fun r => Match r (str "GET") (str "/a/b/c")) =
      .ok (some 4, [(str "*", str "c"), (str "p", str "b")]) ∧
    (Build ⟨[⟨str "GET", str "/a/:p/c", 4⟩, ⟨str "POST", str "/a/b/*", 5⟩], false⟩).1.map
        (fun r => Match r (str "GET") (str "/a/b/z")) =
      .ok (none, [(str "*", str "z")]) := by
  refine ⟨by decide, by decide⟩

/-! ### Node projection lemmas -/

@[simp] theorem segment_mk (s : Str) (m : List (Str × Handler))
    (c : List (Str × Node)) (pn : Str) (ip iw : Bool) (w : Option Node) :
    (Node.mk s m c pn ip iw w).segment = s := rfl

@[simp] theorem methods_mk (s : Str) (m : List (Str × Handler))
    (c : List (Str × Node)) (pn : Str) (ip iw : Bool) (w : Option Node) :
    (Node.mk s m c pn ip iw w).methods = m := rfl

@[simp] theorem children_mk (s : Str) (m : List (Str × Handler))
    (c : List (Str × Node)) (pn : Str) (ip iw : Bool) (w : Option Node) :
    (Node.mk s m c pn ip iw w).children = c := rfl

@[simp] theorem paramName_mk (s : Str) (m : List (Str × Handler))
    (c : List (Str × Node)) (pn : Str) (ip iw : Bool) (w : Option Node) :
    (Node.mk s m c pn ip iw w).paramName = pn := rfl

@[simp] theorem isParam_mk (s : Str) (m : List (Str × Handler))
    (c : List (Str × Node)) (pn : Str) (ip iw : Bool) (w : Option Node) :
    (Node.mk s m c pn ip iw w).isParam = ip := rfl

@[simp] theorem isWild_mk (s : Str) (m : List (Str × Handler))
    (c : List (Str × Node)) (pn : Str) (ip iw : Bool) (w : Option Node) :
    (Node.mk s m c pn ip iw w).isWild = iw := rfl

@[simp] theorem wildChild_mk (s : Str) (m : List (Str × Handler))
    (c : List (Str × Node)) (pn : Str) (ip iw : Bool) (w : Option Node) :
    (Node.mk s m c pn ip iw w).wildChild = w := rfl

@[simp] theorem withMethods_methods (n : Node) (m : List (Str × Handler)) :
    (n.withMethods m).methods = m := by cases n; rfl

@[simp] theorem withMethods_children (n : Node) (m : List (Str × Handler)) :
    (n.withMethods m).children = n.children := by cases n; rfl

@[simp] theorem withMethods_paramName (n : Node) (m : List (Str × Handler)) :
    (n.withMethods m).paramName = n.paramName := by cases n; rfl

@[simp] theorem withMethods_isParam (n : Node) (m : List (Str × Handler)) :
    (n.withMethods m).isParam = n.isParam := by cases n; rfl

@[simp] theorem withMethods_wildChild (n : Node) (m : List (Str × Handler)) :
    (n.withMethods m).wildChild = n.wildChild := by cases n; rfl

@[simp] theorem withChildren_methods (n : Node) (c : List (Str × Node)) :
    (n.withChildren c).methods = n.methods := by cases n; rfl

@[simp] theorem withChildren_children (n : Node) (c : List (Str × Node)) :
    (n.withChildren c).children = c := by cases n; rfl

@[simp] theorem withChildren_paramName (n : Node) (c : List (Str × Node)) :
    (n.withChildren c).paramName = n.paramName := by cases n; rfl

@[simp] theorem withChildren_isParam (n : Node) (c : List (Str × Node)) :
    (n.withChildren c).isParam = n.isParam := by cases n; rfl

@[simp] theorem withChildren_wildChild (n : Node) (c : List (Str × Node)) :
    (n.withChildren c).wildChild = n.wildChild := by cases n; rfl

@[simp] theorem withWild_methods (n : Node) (w : Option Node) :
    (n.withWild w).methods = n.methods := by cases n; rfl

@[simp] theorem withWild_children (n : Node) (w : Option Node) :
    (n.withWild w).children = n.children := by cases n; rfl

@[simp] theorem withWild_paramName (n : Node) (w : Option Node) :
    (n.withWild w).paramName = n.paramName := by cases n; rfl

@[simp] theorem withWild_isParam (n : Node) (w : Option Node) :
    (n.withWild w).isParam = n.isParam := by cases n; rfl

@[simp] theorem withWild_wildChild (n : Node) (w : Option Node) :
    (n.withWild w).wildChild = w := by cases n; rfl

/-! ### Field preservation under insertion -/

theorem insertNode_isParam (segs : List Str) (n : Node) (M : Str) (h : Handler) :
    (insertNode n segs M h).isParam = n.isParam := by
  cases segs with
  | nil => simp [insertNode]
  | cons seg rest =>
    simp only [insertNode]
    by_cases h1 : seg = ['*']
    · simp [h1]
    · by_cases h2 : seg.head? = some ':'
      · simp only [if_neg h1, if_pos h2]
        cases findParamChild n.children (seg.drop 1) <;> simp
      · simp only [if_neg h1, if_neg h2]
        cases mapGet n.children seg <;> simp

theorem insertNode_paramName (segs : List Str) (n : Node) (M : Str) (h : Handler) :
    (insertNode n segs M h).paramName = n.paramName := by
  cases segs with
  | nil => simp [insertNode]
  | cons seg rest =>
    simp only [insertNode]
    by_cases h1 : seg = ['*']
    · simp [h1]
    · by_cases h2 : seg.head? = some ':'
      · simp only [if_neg h1, if_pos h2]
        cases findParamChild n.children (seg.drop 1) <;> simp
      · simp only [if_neg h1, if_neg h2]
        cases mapGet n.children seg <;> simp

/-! ### Lemmas about the parameter-child search -/

theorem findParamChild_mem {l : List (Str × Node)} {nm k : Str} {c : Node}
    (h : findParamChild l nm = some (k, c)) :
    (k, c) ∈ l ∧ c.isParam = true ∧ c.paramName = nm := by
  induction l with
  | nil => simp [findParamChild] at h
  | cons kc rest ih =>
    obtain ⟨k0, c0⟩ := kc
    by_cases hp : c0.isParam = true ∧ c0.paramName = nm
    · rw [findParamChild, if_pos hp] at h
      obtain ⟨rfl, rfl⟩ : k0 = k ∧ c0 = c :=
        ⟨congrArg Prod.fst (Option.some.inj h), congrArg Prod.snd (Option.some.inj h)⟩
      exact ⟨List.mem_cons_self _ _, hp⟩
    · rw [findParamChild, if_neg hp] at h
      obtain ⟨hm, hi⟩ := ih h
      exact ⟨List.mem_cons_of_mem _ hm, hi⟩

theorem findParamChild_some_key {l : List (Str × Node)} {nm k : Str} {c : Node}
    (hkey : ∀ k2 c2, (k2, c2) ∈ l →
      ((c2.isParam = true ↔ k2.head? = some ':') ∧
       (c2.isParam = true → k2 = ':' :: c2.paramName)))
    (h : findParamChild l nm = some (k, c)) :
    k = ':' :: nm ∧ mapGet l (':' :: nm) = some c := by
  induction l with
  | nil => simp [findParamChild] at h
  | cons kc rest ih =>
    obtain ⟨k0, c0⟩ := kc
    by_cases hp : c0.isParam = true ∧ c0.paramName = nm
    · rw [findParamChild, if_pos hp] at h
      have hinj := Option.some.inj h
      have hk0 : k = k0 := (congrArg Prod.fst hinj).symm
      have hc0 : c = c0 := (congrArg Prod.snd hinj).symm
      have hk := (hkey k0 c0 (List.mem_cons_self _ _)).2 hp.1
      have hkm : k = ':' :: nm := by rw [hk0, hk, hp.2]
      refine ⟨hkm, ?_⟩
      have hk0m : k0 = ':' :: nm := by rw [← hk0]; exact hkm
      rw [mapGet, if_pos hk0m, hc0]
    · rw [findParamChild, if_neg hp] at h
      have hkey2 : ∀ k2 c2, (k2, c2) ∈ rest →
          ((c2.isParam = true ↔ k2.head? = some ':') ∧
           (c2.isParam = true → k2 = ':' :: c2.paramName)) :=
        fun k2 c2 hm => hkey k2 c2 (List.mem_cons_of_mem _ hm)
      obtain ⟨hk, hg⟩ := ih hkey2 h
      refine ⟨hk, ?_⟩
      have hk0 : ¬ k0 = ':' :: nm := by
        intro hEq
        have hhd : k0.head? = some ':' := by rw [hEq]; rfl
        have hip : c0.isParam = true := (hkey k0 c0 (List.mem_cons_self _ _)).1.mpr hhd
        have hkk : k0 = ':' :: c0.paramName := (hkey k0 c0 (List.mem_cons_self _ _)).2 hip
        have : c0.paramName = nm := by
          rw [hkk] at hEq
          exact List.cons.inj hEq |>.2
        exact hp ⟨hip, this⟩
      rw [mapGet, if_neg hk0]
      exact hg

theorem findParamChild_none_key {l : List (Str × Node)} {nm : Str}
    (hkey : ∀ k2 c2, (k2, c2) ∈ l →
      ((c2.isParam = true ↔ k2.head? = some ':') ∧
       (c2.isParam = true → k2 = ':' :: c2.paramName)))
    (h : findParamChild l nm = none) :
    mapGet l (':' :: nm) = none := by
  induction l with
  | nil => rfl
  | cons kc rest ih =>
    obtain ⟨k0, c0⟩ := kc
    by_cases hp : c0.isParam = true ∧ c0.paramName = nm
    · rw [findParamChild, if_pos hp] at h
      exact absurd h (by simp)
    · rw [findParamChild, if_neg hp] at h
      have hk0 : ¬ k0 = ':' :: nm := by
        intro hEq
        have hhd : k0.head? = some ':' := by rw [hEq]; rfl
        have hip : c0.isParam = true := (hkey k0 c0 (List.mem_cons_self _ _)).1.mpr hhd
        have hkk : k0 = ':' :: c0.paramName := (hkey k0 c0 (List.mem_cons_self _ _)).2 hip
        have : c0.paramName = nm := by
          rw [hkk] at hEq
          exact List.cons.inj hEq |>.2
        exact hp ⟨hip, this⟩
      rw [mapGet, if_neg hk0]
      exact ih (fun k2 c2 hm => hkey k2 c2 (List.mem_cons_of_mem _ hm)) h

/-! ### Well-formedness of built tries -/

theorem WfNode.children_key {n : Node} (hwf : WfNode n) :
    ∀ k c, (k, c) ∈ n.children →
      ((c.isParam = true ↔ k.head? = some ':') ∧
       (c.isParam = true → k = ':' :: c.paramName)) := by
  cases hwf with
  | mk n hkey hch hw => exact hkey

theorem WfNode.childWf {n : Node} (hwf : WfNode n) :
    ∀ k c, (k, c) ∈ n.children → WfNode c := by
  cases hwf with
  | mk n hkey hch hw => exact hch

theorem WfNode.wildWf {n : Node} (hwf : WfNode n) :
    ∀ w, n.wildChild = some w → WfNode w := by
  cases hwf with
  | mk n hkey hch hw => exact hw

theorem wf_of_leaf {n : Node} (hc : n.children = []) (hw : n.wildChild = none) :
    WfNode n := by
  refine WfNode.mk _ ?_ ?_ ?_
  · intro k c hm
    rw [hc] at hm
    exact absurd hm (List.not_mem_nil _)
  · intro k c hm
    rw [hc] at hm
    exact absurd hm (List.not_mem_nil _)
  · intro w hweq
    rw [hw] at hweq
    exact absurd hweq (by simp)

theorem wfNode_withChildren_mapSet {n : Node} (hwf : WfNode n) {k : Str} {c : Node}
    (hk1 : c.isParam = true ↔ k.head? = some ':')
    (hk2 : c.isParam = true → k = ':' :: c.paramName)
    (hwfc : WfNode c) :
    WfNode (n.withChildren (mapSet n.children k c)) := by
  refine WfNode.mk _ ?_ ?_ ?_
  · intro k2 c2 hm
    rw [withChildren_children] at hm
    rcases mem_mapSet hm with hold | ⟨rfl, rfl⟩
    · exact hwf.children_key _ _ hold
    · exact ⟨hk1, hk2⟩
  · intro k2 c2 hm
    rw [withChildren_children] at hm
    rcases mem_mapSet hm with hold | ⟨rfl, rfl⟩
    · exact hwf.childWf _ _ hold
    · exact hwfc
  · intro w hweq
    rw [withChildren_wildChild] at hweq
    exact hwf.wildWf w hweq

theorem wfNode_insertNode : ∀ (segs : List Str) (n : Node), WfNode n →
    ∀ (M : Str) (h : Handler), WfNode (insertNode n segs M h) := by
  intro segs
  induction segs with
  | nil =>
    intro n hwf M h
    refine WfNode.mk _ ?_ ?_ ?_
    · intro k c hm
      rw [insertNode, withMethods_children] at hm
      exact hwf.children_key _ _ hm
    · intro k c hm
      rw [insertNode, withMethods_children] at hm
      exact hwf.childWf _ _ hm
    · intro w hweq
      rw [insertNode, withMethods_wildChild] at hweq
      exact hwf.wildWf w hweq
  | cons seg rest ih =>
    intro n hwf M h
    rw [insertNode]
    by_cases h1 : seg = ['*']
    · rw [if_pos h1]
      refine WfNode.mk _ ?_ ?_ ?_
      · intro k c hm
        rw [withWild_children] at hm
        exact hwf.children_key _ _ hm
      · intro k c hm
        rw [withWild_children] at hm
        exact hwf.childWf _ _ hm
      · intro w hweq
        rw [withWild_wildChild] at hweq
        have hw2 : w = insertNode (n.wildChild.getD wildNode) rest M h :=
          (Option.some.inj hweq).symm
        rw [hw2]
        apply ih
        cases hold : n.wildChild with
        | some w0 => exact hwf.wildWf w0 hold
        | none => exact wf_of_leaf rfl rfl
    · rw [if_neg h1]
      by_cases h2 : seg.head? = some ':'
      · rw [if_pos h2]
        cases hf : findParamChild n.children (seg.drop 1) with
        | some kc =>
          obtain ⟨k0, c0⟩ := kc
          obtain ⟨hm0, hip0, hpn0⟩ := findParamChild_mem hf
          have hkeys := hwf.children_key _ _ hm0
          refine wfNode_withChildren_mapSet hwf ?_ ?_ (ih c0 (hwf.childWf _ _ hm0) M h)
          · rw [insertNode_isParam]
            have hhd := (hkeys.1).mp hip0
            simp [hip0, hhd]
          · intro _
            rw [insertNode_paramName]
            exact hkeys.2 hip0
        | none =>
          refine wfNode_withChildren_mapSet hwf ?_ ?_
            (ih (paramNode seg) (wf_of_leaf rfl rfl) M h)
          · rw [insertNode_isParam]
            simp [paramNode, h2]
          · intro _
            rw [insertNode_paramName]
            simp only [paramNode, paramName_mk]
            cases seg with
            | nil => exact absurd h2 (by simp)
            | cons a t =>
              have ha : a = ':' := by
                simpa using h2
              rw [ha]
              rfl
      · rw [if_neg h2]
        cases hg : mapGet n.children seg with
        | some c0 =>
          have hm0 : (seg, c0) ∈ n.children := mem_of_mapGet_eq_some hg
          have hkeys := hwf.children_key _ _ hm0
          refine wfNode_withChildren_mapSet hwf ?_ ?_ (ih c0 (hwf.childWf _ _ hm0) M h)
          · rw [insertNode_isParam]
            exact hkeys.1
          · intro hip
            rw [insertNode_paramName]
            rw [insertNode_isParam] at hip
            exact hkeys.2 hip
        | none =>
          refine wfNode_withChildren_mapSet hwf ?_ ?_
            (ih (litNode seg) (wf_of_leaf rfl rfl) M h)
          · rw [insertNode_isParam]
            simp [litNode, h2]
          · intro hip
            rw [insertNode_isParam] at hip
            simp [litNode] at hip

/-! ### Literal-descent lookup after insertion -/

theorem findExactM_nil (n : Node) (M : Str) : findExactM n [] M = mapGet n.methods M := rfl

theorem findExactM_cons_some {n c : Node} {s : Str} (hg : mapGet n.children s = some c)
    (rest : List Str) (M : Str) : findExactM n (s :: rest) M = findExactM c rest M := by
  simp [findExactM, findExact, hg]

theorem findExactM_cons_none {n : Node} {s : Str} (hg : mapGet n.children s = none)
    (rest : List Str) (M : Str) : findExactM n (s :: rest) M = none := by
  simp [findExactM, findExact, hg]

theorem findExactM_congr {n n2 : Node} (hc : n2.children = n.children)
    (hm : n2.methods = n.methods) :
    ∀ (ss : List Str) (M : Str), findExactM n2 ss M = findExactM n ss M := by
  intro ss M
  cases ss with
  | nil => rw [findExactM_nil, findExactM_nil, hm]
  | cons s rest =>
    cases hg : mapGet n.children s with
    | some c =>
      rw [findExactM_cons_some (show mapGet n2.children s = some c by rw [hc]; exact hg),
        findExactM_cons_some hg]
    | none =>
      rw [findExactM_cons_none (show mapGet n2.children s = none by rw [hc]; exact hg),
        findExactM_cons_none hg]

theorem findExactM_cons_congr {n n2 : Node} {s : Str}
    (hg : mapGet n2.children s = mapGet n.children s) (rest : List Str) (M : Str) :
    findExactM n2 (s :: rest) M = findExactM n (s :: rest) M := by
  cases hq : mapGet n.children s with
  | some c =>
    rw [findExactM_cons_some (hg.trans hq) rest M, findExactM_cons_some hq rest M]
  | none =>
    rw [findExactM_cons_none (hg.trans hq) rest M, findExactM_cons_none hq rest M]

theorem findExactM_leaf (n : Node) (hc : n.children = []) (hm : n.methods = []) :
    ∀ (ss : List Str) (M : Str), findExactM n ss M = none := by
  intro ss M
  cases ss with
  | nil =>
    rw [findExactM_nil, hm]
    rfl
  | cons s rest =>
    refine findExactM_cons_none ?_ rest M
    rw [hc]
    rfl

/-- Inserting a route changes literal-descent lookups at exactly its own
segment sequence and method, and there it stores exactly the new handler —
for wildcard-free query sequences on well-formed tries. -/
theorem findExactM_insertNode :
    ∀ (segs : List Str) (n : Node), WfNode n →
    ∀ (ss : List Str), noStar ss → ∀ (M M2 : Str) (h : Handler),
    findExactM (insertNode n segs M h) ss M2 =
      if segs = ss ∧ M = M2 then some h else findExactM n ss M2 := by
  intro segs
  induction segs with
  | nil =>
    intro n hwf ss hns M M2 h
    cases ss with
    | nil =>
      rw [insertNode, findExactM_nil, withMethods_methods]
      by_cases hM : M = M2
      · subst hM
        simp [mapGet_mapSet_self]
      · rw [mapGet_mapSet_ne _ _ (fun hq => hM hq.symm)]
        rw [if_neg (fun hq => hM hq.2)]
        rw [findExactM_nil]
    | cons s rest =>
      have hcond : ¬(([] : List Str) = s :: rest ∧ M = M2) := fun hq => List.noConfusion hq.1
      rw [if_neg hcond, insertNode]
      exact findExactM_cons_congr (by rw [withMethods_children]) rest M2
  | cons seg segrest ih =>
    intro n hwf ss hns M M2 h
    rw [insertNode]
    by_cases h1 : seg = ['*']
    · rw [if_pos h1]
      have hcond : ¬(seg :: segrest = ss ∧ M = M2) := by
        intro hq
        refine hns ?_
        rw [← hq.1, h1]
        exact List.mem_cons_self _ _
      rw [if_neg hcond]
      exact findExactM_congr (withWild_children _ _) (withWild_methods _ _) ss M2
    · rw [if_neg h1]
      by_cases h2 : seg.head? = some ':'
      · rw [if_pos h2]
        have hseg : seg = ':' :: seg.drop 1 := by
          cases seg with
          | nil => exact absurd h2 (by simp)
          | cons a t =>
            have ha : a = ':' := by simpa using h2
            rw [ha]
            rfl
        cases hf : findParamChild n.children (seg.drop 1) with
        | some kc =>
          obtain ⟨k0, c0⟩ := kc
          obtain ⟨hm0, hip0, hpn0⟩ := findParamChild_mem hf
          obtain ⟨hk0, hg0⟩ := findParamChild_some_key hwf.children_key hf
          have hk0seg : k0 = seg := hk0.trans hseg.symm
          have hgseg : mapGet n.children seg = some c0 := by
            rw [hseg]
            exact hg0
          cases ss with
          | nil =>
            have hcond : ¬(seg :: segrest = ([] : List Str) ∧ M = M2) :=
              fun hq => List.noConfusion hq.1
            rw [if_neg hcond, findExactM_nil, findExactM_nil, withChildren_methods]
          | cons s rest =>
            have hns2 : noStar rest := fun hm => hns (List.mem_cons_of_mem _ hm)
            by_cases hs : s = seg
            · subst hs
              have hnew : mapGet (n.withChildren
                    (mapSet n.children k0 (insertNode c0 segrest M h))).children s =
                  some (insertNode c0 segrest M h) := by
                rw [withChildren_children, hk0seg, mapGet_mapSet_self]
              rw [findExactM_cons_some hnew rest M2, findExactM_cons_some hgseg rest M2]
              rw [ih c0 (hwf.childWf _ _ hm0) rest hns2 M M2 h]
              by_cases hc2 : segrest = rest ∧ M = M2
              · rw [if_pos hc2, if_pos ⟨by rw [hc2.1], hc2.2⟩]
              · rw [if_neg hc2,
                  if_neg (fun hq => hc2 ⟨(List.cons.inj hq.1).2, hq.2⟩)]
            · have hcond : ¬(seg :: segrest = s :: rest ∧ M = M2) := by
                intro hq
                exact hs (List.cons.inj hq.1).1.symm
              rw [if_neg hcond]
              refine findExactM_cons_congr ?_ rest M2
              rw [withChildren_children, hk0seg]
              exact mapGet_mapSet_ne _ _ hs
        | none =>
          have hg0 := findParamChild_none_key hwf.children_key hf
          have hgseg : mapGet n.children seg = none := by
            rw [hseg]
            exact hg0
          cases ss with
          | nil =>
            have hcond : ¬(seg :: segrest = ([] : List Str) ∧ M = M2) :=
              fun hq => List.noConfusion hq.1
            rw [if_neg hcond, findExactM_nil, findExactM_nil, withChildren_methods]
          | cons s rest =>
            have hns2 : noStar rest := fun hm => hns (List.mem_cons_of_mem _ hm)
            by_cases hs : s = seg
            · subst hs
              have hnew : mapGet (n.withChildren
                    (mapSet n.children s (insertNode (paramNode s) segrest M h))).children s =
                  some (insertNode (paramNode s) segrest M h) := by
                rw [withChildren_children, mapGet_mapSet_self]
              rw [findExactM_cons_some hnew rest M2, findExactM_cons_none hgseg rest M2]
              rw [ih (paramNode s) (wf_of_leaf rfl rfl) rest hns2 M M2 h]
              rw [findExactM_leaf (paramNode s) rfl rfl rest M2]
              by_cases hc2 : segrest = rest ∧ M = M2
              · rw [if_pos hc2, if_pos ⟨by rw [hc2.1], hc2.2⟩]
              · rw [if_neg hc2,
                  if_neg (fun hq => hc2 ⟨(List.cons.inj hq.1).2, hq.2⟩)]
            · have hcond : ¬(seg :: segrest = s :: rest ∧ M = M2) := by
                intro hq
                exact hs (List.cons.inj hq.1).1.symm
              rw [if_neg hcond]
              refine findExactM_cons_congr ?_ rest M2
              rw [withChildren_children]
              exact mapGet_mapSet_ne _ _ hs
      · rw [if_neg h2]
        cases hg : mapGet n.children seg with
        | some c0 =>
          have hm0 : (seg, c0) ∈ n.children := mem_of_mapGet_eq_some hg
          cases ss with
          | nil =>
            have hcond : ¬(seg :: segrest = ([] : List Str) ∧ M = M2) :=
              fun hq => List.noConfusion hq.1
            rw [if_neg hcond, findExactM_nil, findExactM_nil, withChildren_methods]
          | cons s rest =>
            have hns2 : noStar rest := fun hm => hns (List.mem_cons_of_mem _ hm)
            by_cases hs : s = seg
            · subst hs
              have hnew : mapGet (n.withChildren
                    (mapSet n.children s (insertNode c0 segrest M h))).children s =
                  some (insertNode c0 segrest M h) := by
                rw [withChildren_children, mapGet_mapSet_self]
              rw [findExactM_cons_some hnew rest M2, findExactM_cons_some hg rest M2]
              rw [ih c0 (hwf.childWf _ _ hm0) rest hns2 M M2 h]
              by_cases hc2 : segrest = rest ∧ M = M2
              · rw [if_pos hc2, if_pos ⟨by rw [hc2.1], hc2.2⟩]
              · rw [if_neg hc2,
                  if_neg (fun hq => hc2 ⟨(List.cons.inj hq.1).2, hq.2⟩)]
            · have hcond : ¬(seg :: segrest = s :: rest ∧ M = M2) := by
                intro hq
                exact hs (List.cons.inj hq.1).1.symm
              rw [if_neg hcond]
              refine findExactM_cons_congr ?_ rest M2
              rw [withChildren_children]
              exact mapGet_mapSet_ne _ _ hs
        | none =>
          cases ss with
          | nil =>
            have hcond : ¬(seg :: segrest = ([] : List Str) ∧ M = M2) :=
              fun hq => List.noConfusion hq.1
            rw [if_neg hcond, findExactM_nil, findExactM_nil, withChildren_methods]
          | cons s rest =>
            have hns2 : noStar rest := fun hm => hns (List.mem_cons_of_mem _ hm)
            by_cases hs : s = seg
            · subst hs
              have hnew : mapGet (n.withChildren
                    (mapSet n.children s (insertNode (litNode s) segrest M h))).children s =
                  some (insertNode (litNode s) segrest M h) := by
                rw [withChildren_children, mapGet_mapSet_self]
              rw [findExactM_cons_some hnew rest M2, findExactM_cons_none hg rest M2]
              rw [ih (litNode s) (wf_of_leaf rfl rfl) rest hns2 M M2 h]
              rw [findExactM_leaf (litNode s) rfl rfl rest M2]
              by_cases hc2 : segrest = rest ∧ M = M2
              · rw [if_pos hc2, if_pos ⟨by rw [hc2.1], hc2.2⟩]
              · rw [if_neg hc2,
                  if_neg (fun hq => hc2 ⟨(List.cons.inj hq.1).2, hq.2⟩)]
            · have hcond : ¬(seg :: segrest = s :: rest ∧ M = M2) := by
                intro hq
                exact hs (List.cons.inj hq.1).1.symm
              rw [if_neg hcond]
              refine findExactM_cons_congr ?_ rest M2
              rw [withChildren_children]
              exact mapGet_mapSet_ne _ _ hs

/-! ### Folding a route list into the trie -/

theorem lastUpd_aux {β : Type} (q : Route → Prop) [DecidablePred q] (g : Route → β) :
    ∀ (rs : List Route) (acc : Option β),
    rs.foldl (fun acc2 r => if q r then some (g r) else acc2) acc =
      match rs.foldl (fun acc2 r => if q r then some (g r) else acc2) none with
      | some h => some h
      | none => acc := by
  intro rs
  induction rs with
  | nil =>
    intro acc
    rfl
  | cons r rest ih =>
    intro acc
    rw [List.foldl_cons, List.foldl_cons, ih ((fun acc2 r => if q r then some (g r) else acc2) acc r),
      ih ((fun acc2 r => if q r then some (g r) else acc2) none r)]
    by_cases hq : q r
    · simp only [hq, if_pos]
      cases rest.foldl (fun acc2 r => if q r then some (g r) else acc2) none
      · simp
      · simp
    · simp only [hq, if_neg, not_false_iff]
      cases rest.foldl (fun acc2 r => if q r then some (g r) else acc2) none
      · simp
      · simp

theorem lastUpd_isSome {β : Type} (q : Route → Prop) [DecidablePred q] (g : Route → β) :
    ∀ (rs : List Route) (r : Route), r ∈ rs → q r →
    ∃ h, rs.foldl (fun acc2 r2 => if q r2 then some (g r2) else acc2) none = some h := by
  intro rs
  induction rs with
  | nil =>
    intro r hr
    exact absurd hr (List.not_mem_nil r)
  | cons r0 rest ih =>
    intro r hr hq
    rw [List.foldl_cons, lastUpd_aux q g rest]
    cases hF : rest.foldl (fun acc2 r2 => if q r2 then some (g r2) else acc2) none with
    | some h => exact ⟨h, rfl⟩
    | none =>
      rcases List.mem_cons.mp hr with rfl | hmem
      · refine ⟨g r, ?_⟩
        simp [hq]
      · obtain ⟨h, hh⟩ := ih r hmem hq
        rw [hF] at hh
        exact absurd hh (by simp)

/-- After folding a normalized route list into any well-formed trie, the
literal-descent lookup at a wildcard-free segment sequence returns the
handler of the last route registered there, or whatever the starting trie
answered when no route matches. -/
theorem findExactM_buildFold :
    ∀ (rs : List Route) (n : Node), WfNode n → ∀ (ss : List Str), noStar ss → ∀ (M : Str),
    findExactM (rs.foldl addRoute n) ss M =
      match storedHandlerFor rs M ss with
      | some h => some h
      | none => findExactM n ss M := by
  intro rs
  induction rs with
  | nil =>
    intro n hwf ss hns M
    rfl
  | cons r rest ih =>
    intro n hwf ss hns M
    rw [List.foldl_cons]
    rw [ih (addRoute n r) (wfNode_insertNode _ _ hwf _ _) ss hns M]
    have hD : findExactM (addRoute n r) ss M =
        if segsOf r.path = ss ∧ r.method = M then some r.handler else findExactM n ss M :=
      findExactM_insertNode (segsOf r.path) n hwf ss hns r.method M r.handler
    rw [hD]
    have hcons : storedHandlerFor (r :: rest) M ss =
        match storedHandlerFor rest M ss with
        | some h2 => some h2
        | none => if r.method = M ∧ segsOf r.path = ss then some r.handler else none := by
      unfold storedHandlerFor
      rw [List.foldl_cons,
        lastUpd_aux (fun r2 => r2.method = M ∧ segsOf r2.path = ss) Route.handler rest]
      cases rest.foldl
          (fun acc2 r2 => if r2.method = M ∧ segsOf r2.path = ss then some r2.handler else acc2)
          none
      · rfl
      · rfl
    rw [hcons]
    cases storedHandlerFor rest M ss with
    | some h => simp
    | none =>
      by_cases hA : segsOf r.path = ss
      · by_cases hB : r.method = M
        · simp [hA, hB]
        · simp [hA, hB]
      · by_cases hB : r.method = M
        · simp [hA, hB]
        · simp [hA, hB]

/-- When literal descent reaches a node holding a handler for the method,
`matchNode` returns exactly that handler: the exact branch is tried first
at every level and a successful subtree is returned immediately. -/
theorem matchNode_of_findExactM :
    ∀ (ss : List Str) (n : Node) (M : Str) (p : PathParams) (h : Handler),
    findExactM n ss M = some h → (matchNode n ss M p).1 = some h := by
  intro ss
  induction ss with
  | nil =>
    intro n M p h hf
    rw [findExactM_nil] at hf
    simp [matchNode, hf]
  | cons s rest ih =>
    intro n M p h hf
    cases hg : mapGet n.children s with
    | none =>
      rw [findExactM_cons_none hg rest M] at hf
      exact absurd hf (by simp)
    | some c =>
      rw [findExactM_cons_some hg rest M] at hf
      have h1 := ih c M p h hf
      cases hmc : matchNode c rest M p with
      | mk r1 p2 =>
        rw [hmc] at h1
        simp only at h1
        rw [h1] at hmc
        simp [matchNode, hg, hmc]

/-! ### The builder pipeline on ordered input -/

theorem sortRoutes_eq_of_ordered :
    ∀ (rs : List Route) (prev : Option Str), pathsOrdered prev rs → sortRoutes rs = rs := by
  intro rs
  induction rs with
  | nil =>
    intro prev hp
    rfl
  | cons r rest ih =>
    intro prev hp
    rw [sortRoutes, ih (some r.path) hp.2]
    cases rest with
    | nil => rfl
    | cons y ys =>
      have hy : strLt y.path r.path = false := hp.2.1 r.path rfl
      rw [insertSorted, hy]
      simp

theorem pathsOrdered_map_norm :
    ∀ (rs : List Route) (prev : Option Str), pathsOrdered prev rs →
      pathsOrdered prev (rs.map normRoute) := by
  intro rs
  induction rs with
  | nil =>
    intro prev hp
    trivial
  | cons r rest ih =>
    intro prev hp
    exact ⟨hp.1, ih (some r.path) hp.2⟩

theorem addRoutes_ok :
    ∀ (rs : List Route) (rb : RouterBuilder), rb.built = false →
    pathsOrdered (rb.routes.getLast?.map Route.path) rs →
    addRoutes rb rs = .ok ⟨rb.routes ++ rs.map normRoute, false⟩ := by
  intro rs
  induction rs with
  | nil =>
    intro rb hb hord
    obtain ⟨routes, built⟩ := rb
    simp only at hb
    rw [hb]
    simp [addRoutes]
  | cons r rest ih =>
    intro rb hb hord
    rw [addRoutes]
    have hstep : AddRoute rb r.method r.path r.handler =
        .ok ⟨rb.routes ++ [normRoute r], false⟩ := by
      unfold AddRoute
      rw [hb]
      simp only [Bool.false_eq_true, if_false]
      cases hL : rb.routes.getLast? with
      | none => rfl
      | some last =>
        have hlt : strLt r.path last.path = false := by
          refine hord.1 last.path ?_
          rw [hL]
          rfl
        simp [hlt, normRoute]
    rw [hstep]
    show addRoutes ⟨rb.routes ++ [normRoute r], false⟩ rest = _
    have hord2 : pathsOrdered
        (((⟨rb.routes ++ [normRoute r], false⟩ : RouterBuilder).routes.getLast?).map Route.path)
        rest := by
      show pathsOrdered (((rb.routes ++ [normRoute r]).getLast?).map Route.path) rest
      rw [List.getLast?_concat]
      exact hord.2
    rw [ih ⟨rb.routes ++ [normRoute r], false⟩ rfl hord2]
    simp

theorem storedHandlerFor_map_norm (rs : List Route) (M : Str) (ss : List Str) :
    storedHandlerFor (rs.map normRoute) M ss = lastHandlerFor rs M ss := by
  unfold storedHandlerFor lastHandlerFor
  rw [List.foldl_map]
  rfl

/-! ### Claim theorems: matching priority and wildcard semantics (C5, C6) -/

theorem paramFold_of_no_params (f : Node → PathParams → Option Handler × PathParams)
    (seg : Str) (cs : List (Str × Node)) (p : PathParams)
    (hnp : ∀ kc ∈ cs, kc.2.isParam = false) :
    paramFold f seg cs p = (none, p) := by
  induction cs with
  | nil => rfl
  | cons kc rest ih =>
    have h1 : kc.2.isParam = false := hnp kc (List.mem_cons_self _ _)
    obtain ⟨k, c⟩ := kc
    simp only [paramFold, h1]
    exact ih (fun kc2 hm => hnp kc2 (List.mem_cons_of_mem _ hm))

/-- Claim C5: at every depth the matcher tries the exact literal child first
and, when that subtree succeeds, returns its result unchanged (first
conjunct, over every node).  On the router built from `GET /a/*`,
`GET /a/:p/d`, `GET /a/x/c`: the query `/a/x/c` takes the literal branch
(handler 1, no bindings); the query `/a/x/d` fails inside the literal branch
`x` and is still answered through the parameter sibling `:p` (handler 2,
binding `p=x`), showing parameter siblings are retried after a failed
literal descent; the query `/a/q/q` fails the literal and parameter branches
— the parameter binding being undone on backtrack — and only then reaches
the wildcard (handler 3, only the `*` binding remains). -/
theorem match_priority_literal_param_wildcard :
    (∀ (n : Node) (s : Str) (rest : List Str) (M : Str) (p : PathParams)
       (c : Node) (h : Handler) (p2 : PathParams),
      mapGet n.children s = some c →
      matchNode c rest M p = (some h, p2) →
      matchNode n (s :: rest) M p = (some h, p2)) ∧
    (Build ⟨[⟨str "GET", str "/a/*", 3⟩, ⟨str "GET", str "/a/:p/d", 2⟩,
             ⟨str "GET", str "/a/x/c", 1⟩], false⟩).1.map
        (fun r => Match r (str "GET") (str "/a/x/c")) = .ok (some 1, []) ∧
    (Build ⟨[⟨str "GET", str "/a/*", 3⟩, ⟨str "GET", str "/a/:p/d", 2⟩,
             ⟨str "GET", str "/a/x/c", 1⟩], false⟩).1.map
        (fun r => Match r (str "GET") (str "/a/x/d")) =
      .ok (some 2, [(str "p", str "x")]) ∧
    (Build ⟨[⟨str "GET", str "/a/*", 3⟩, ⟨str "GET", str "/a/:p/d", 2⟩,
             ⟨str "GET", str "/a/x/c", 1⟩], false⟩).1.map
        (fun r => Match r (str "GET") (str "/a/q/q")) =
      .ok (some 3, [(str "*", str "q/q")]) := by
  refine ⟨?_, by decide, by decide, by decide⟩
  intro n s rest M p c h p2 h1 h2
  simp [matchNode, h1, h2]

def prLeaf : Node := .mk (str "a") [(str "GET", 7)] [] (str "") false false none

def prRoot : Node := .mk (str "") [] [(str "a", prLeaf)] (str "") false false none

/-- Witness for C5: the literal-priority conjunct applied to a concrete
two-node trie. -/
theorem match_priority_literal_param_wildcard_witness :
    matchNode prRoot [str "a"] (str "GET") [] = (some 7, []) :=
  match_priority_literal_param_wildcard.1 prRoot (str "a") [] (str "GET") []
    prLeaf 7 [] rfl rfl

/-- Claim C6: when a node has a wildcard child and the current segment hits
neither a literal nor a parameter child, the matcher binds the literal key
`*` to the entire remaining path joined by `/` and reads the handler off the
wildcard node's own method map without recursing (first conjunct, over every
node with no parameter children and no literal child for the segment).  On
the router built from `GET /files/*`, the query `/files/dir/file.txt`
returns the wildcard handler with bindings exactly `*=dir/file.txt`; and on
the router built from `GET /x/*` plus `GET /x/*/y`, the query `/x/a/y`
returns the handler stored at the wildcard node itself (handler 1), not the
deeper `/x/*/y` handler — the wildcard consumes all remaining segments and
the matcher does not recurse past it. -/
theorem wildcard_match_semantics :
    (∀ (n : Node) (s : Str) (rest : List Str) (M : Str) (p : PathParams) (w : Node),
      n.wildChild = some w →
      mapGet n.children s = none →
      (∀ kc ∈ n.children, kc.2.isParam = false) →
      matchNode n (s :: rest) M p =
        (mapGet w.methods M, mapSet p ['*'] (joinSlash (s :: rest)))) ∧
    (Build ⟨[⟨str "GET", str "/files/*", 9⟩], false⟩).1.map
        (fun r => Match r (str "GET") (str "/files/dir/file.txt")) =
      .ok (some 9, [(str "*", str "dir/file.txt")]) ∧
    (Build ⟨[⟨str "GET", str "/x/*", 1⟩, ⟨str "GET", str "/x/*/y", 2⟩], false⟩).1.map
        (fun r => Match r (str "GET") (str "/x/a/y")) =
      .ok (some 1, [(str "*", str "a/y")]) := by
  refine ⟨?_, by decide, by decide⟩
  intro n s rest M p w hw hnone hnp
  have hpf := paramFold_of_no_params (fun c q => matchNode c rest M q) s n.children p hnp
  simp [matchNode, hnone, hpf, hw]

def wcWild : Node := .mk (str "*") [(str "GET", 8)] [] (str "") false true none

def wcRoot : Node := .mk (str "") [] [] (str "") false false (some wcWild)

/-- Witness for C6: the wildcard conjunct applied to a concrete trie with
two remaining segments. -/
theorem wildcard_match_semantics_witness :
    matchNode wcRoot [str "d", str "e"] (str "GET") [] =
      (some 8, [(str "*", str "d/e")]) :=
  wildcard_match_semantics.1 wcRoot (str "d") [str "e"] (str "GET") [] wcWild
    rfl rfl (fun kc hm => absurd hm (List.not_mem_nil kc))

/-- Witness for C7: a concrete out-of-order rejection obtained through the
theorem. -/
theorem addRoute_out_of_order_iff_witness :
    AddRoute ⟨[⟨str "GET", str "/b", 1⟩], false⟩ (str "GET") (str "/a") 2 =
      .error .OutOfOrder :=
  (addRoute_out_of_order_iff ⟨[⟨str "GET", str "/b", 1⟩], false⟩ rfl
      (str "GET") (str "/a") 2).1.mpr
    ⟨⟨str "GET", str "/b", 1⟩, rfl, by decide⟩

/-- Witness for C8: the one-shot behavior on a concrete fresh builder. -/
theorem build_one_shot_finalization_witness :
    (Build ⟨[], false⟩).1 = .ok ⟨buildTrie (sortRoutes [])⟩ ∧
    AddRoute (Build ⟨[], false⟩).2 (str "GET") (str "/a") 1 =
      .error .AlreadyFinalized ∧
    (Build (Build ⟨[], false⟩).2).1 = .error .AlreadyFinalized :=
  build_one_shot_finalization ⟨[], false⟩ rfl (str "GET") (str "/a") 1

/-! ### Claim C3: buildability and matchability of added routes -/

/-- On the trie built from the normalized route list, a registered route
with a wildcard-free path is matched (querying with the stored, uppercased
method) to the handler most recently assigned to its method and normalized
segment sequence. -/
theorem match_returns_last_handler (rs : List Route)
    (r : Route) (hr : r ∈ rs) (hns : noStar (segsOf r.path)) :
    ∃ h, lastHandlerFor rs (upperStr r.method) (segsOf r.path) = some h ∧
      (Match ⟨buildTrie (rs.map normRoute)⟩ (upperStr r.method) r.path).1 = some h := by
  have hq : (fun r2 => upperStr r2.method = upperStr r.method ∧
      segsOf r2.path = segsOf r.path) r := ⟨rfl, rfl⟩
  obtain ⟨h, hh⟩ := lastUpd_isSome
    (fun r2 => upperStr r2.method = upperStr r.method ∧ segsOf r2.path = segsOf r.path)
    Route.handler rs r hr hq
  have hh2 : lastHandlerFor rs (upperStr r.method) (segsOf r.path) = some h := hh
  refine ⟨h, hh2, ?_⟩
  show (matchNode (buildTrie (rs.map normRoute)) (segsOf r.path) (upperStr r.method) []).1 =
    some h
  apply matchNode_of_findExactM
  show findExactM (List.foldl addRoute emptyRoot (rs.map normRoute)) (segsOf r.path)
    (upperStr r.method) = some h
  rw [findExactM_buildFold (rs.map normRoute) emptyRoot (wf_of_leaf rfl rfl)
    (segsOf r.path) hns (upperStr r.method)]
  rw [storedHandlerFor_map_norm, hh2]

/-- Claim C3 (amended): for a route sequence in non-decreasing byte-wise
path order — equal paths allowed, so re-adding a (method, path) raises no
error — feeding the routes through `AddRoute` succeeds, `Build` succeeds,
and every added route whose path contains no wildcard segment `*` is
subsequently matchable through `Match` with its uppercased (stored) method,
returning the handler most recently assigned to its method and normalized
path: later duplicates silently overwrite earlier ones.  (As stated in the
claim this fails for routes with a wildcard segment followed by more
segments, whose handlers are unreachable: see the counterexample.) -/
theorem build_matches_added_routes (rs : List Route) (hord : pathsOrdered none rs)
    (r : Route) (hr : r ∈ rs) (hns : noStar (segsOf r.path)) :
    addRoutes NewRouterBuilder rs = .ok ⟨rs.map normRoute, false⟩ ∧
    (Build ⟨rs.map normRoute, false⟩).1 = .ok ⟨buildTrie (rs.map normRoute)⟩ ∧
    ∃ h, lastHandlerFor rs (upperStr r.method) (segsOf r.path) = some h ∧
      (Match ⟨buildTrie (rs.map normRoute)⟩ (upperStr r.method) r.path).1 = some h := by
  refine ⟨?_, ?_, match_returns_last_handler rs r hr hns⟩
  · have h0 := addRoutes_ok rs NewRouterBuilder rfl hord
    simpa using h0
  · show (Except.ok ⟨buildTrie (sortRoutes (rs.map normRoute))⟩ : Except RouterErr Router) =
      .ok ⟨buildTrie (rs.map normRoute)⟩
    rw [sortRoutes_eq_of_ordered (rs.map normRoute) none (pathsOrdered_map_norm rs none hord)]

/-- Claim C3 (counterexample): adding the single route `GET /a/*/b` in order
succeeds and `Build` succeeds, yet matching that very (method, path) pair
returns no handler — the route's handler sits below the wildcard node and
the matcher never descends past a wildcard. -/
theorem build_succeeds_but_wildcard_route_unmatchable :
    addRoutes NewRouterBuilder [⟨str "GET", str "/a/*/b", 31⟩] =
      .ok ⟨[⟨str "GET", str "/a/*/b", 31⟩], false⟩ ∧
    (Build ⟨[⟨str "GET", str "/a/*/b", 31⟩], false⟩).1.map
        (fun r => (Match r (str "GET") (str "/a/*/b")).1) = .ok none := by
  refine ⟨by decide, by decide⟩

def rsW3 : List Route := [⟨str "get", str "/u/:id", 3⟩, ⟨str "GET", str "/u/:id", 4⟩]

/-- Witness for C3: the amended theorem applied to a concrete two-route
sequence re-registering (GET, /u/:id); the later handler wins. -/
theorem build_matches_added_routes_witness :
    addRoutes NewRouterBuilder rsW3 = .ok ⟨rsW3.map normRoute, false⟩ ∧
    (Build ⟨rsW3.map normRoute, false⟩).1 = .ok ⟨buildTrie (rsW3.map normRoute)⟩ ∧
    ∃ h, lastHandlerFor rsW3 (upperStr (str "get")) (segsOf (str "/u/:id")) = some h ∧
      (Match ⟨buildTrie (rsW3.map normRoute)⟩ (upperStr (str "get")) (str "/u/:id")).1 =
        some h :=
  build_matches_added_routes rsW3
    ⟨fun lp hq => Option.noConfusion hq,
     fun lp hq => by
       have hlp : lp = str "/u/:id" := (Option.some.inj hq).symm
       rw [hlp]
       decide,
     trivial⟩
    ⟨str "get", str "/u/:id", 3⟩ (by decide) (by decide)

/-! ### Claim C10: method-case asymmetry -/

theorem MethodsUpper.methodKey {n : Node} (hmu : MethodsUpper n) :
    ∀ k h, (k, h) ∈ n.methods → upperStr k = k := by
  cases hmu with
  | mk n hm hch hw => exact hm

theorem MethodsUpper.childUpper {n : Node} (hmu : MethodsUpper n) :
    ∀ k c, (k, c) ∈ n.children → MethodsUpper c := by
  cases hmu with
  | mk n hm hch hw => exact hch

theorem MethodsUpper.wildUpper {n : Node} (hmu : MethodsUpper n) :
    ∀ w, n.wildChild = some w → MethodsUpper w := by
  cases hmu with
  | mk n hm hch hw => exact hw

theorem methodsUpper_leaf {n : Node} (hm : n.methods = []) (hc : n.children = [])
    (hw : n.wildChild = none) : MethodsUpper n := by
  refine MethodsUpper.mk _ ?_ ?_ ?_
  · intro k h hmem
    rw [hm] at hmem
    exact absurd hmem (List.not_mem_nil _)
  · intro k c hmem
    rw [hc] at hmem
    exact absurd hmem (List.not_mem_nil _)
  · intro w hweq
    rw [hw] at hweq
    exact absurd hweq (by simp)

theorem methodsUpper_withChildren_mapSet {n : Node} (hmu : MethodsUpper n)
    {k : Str} {c : Node} (hc : MethodsUpper c) :
    MethodsUpper (n.withChildren (mapSet n.children k c)) := by
  refine MethodsUpper.mk _ ?_ ?_ ?_
  · intro k2 h2 hmem
    rw [withChildren_methods] at hmem
    exact hmu.methodKey _ _ hmem
  · intro k2 c2 hmem
    rw [withChildren_children] at hmem
    rcases mem_mapSet hmem with hold | ⟨rfl, rfl⟩
    · exact hmu.childUpper _ _ hold
    · exact hc
  · intro w hweq
    rw [withChildren_wildChild] at hweq
    exact hmu.wildUpper w hweq

theorem methodsUpper_insertNode :
    ∀ (segs : List Str) (n : Node), MethodsUpper n →
    ∀ (M : Str), upperStr M = M → ∀ (h : Handler),
    MethodsUpper (insertNode n segs M h) := by
  intro segs
  induction segs with
  | nil =>
    intro n hmu M hM h
    refine MethodsUpper.mk _ ?_ ?_ ?_
    · intro k h2 hmem
      rw [insertNode, withMethods_methods] at hmem
      rcases mem_mapSet hmem with hold | ⟨rfl, rfl⟩
      · exact hmu.methodKey _ _ hold
      · exact hM
    · intro k c hmem
      rw [insertNode, withMethods_children] at hmem
      exact hmu.childUpper _ _ hmem
    · intro w hweq
      rw [insertNode, withMethods_wildChild] at hweq
      exact hmu.wildUpper w hweq
  | cons seg rest ih =>
    intro n hmu M hM h
    rw [insertNode]
    by_cases h1 : seg = ['*']
    · rw [if_pos h1]
      refine MethodsUpper.mk _ ?_ ?_ ?_
      · intro k h2 hmem
        rw [withWild_methods] at hmem
        exact hmu.methodKey _ _ hmem
      · intro k c hmem
        rw [withWild_children] at hmem
        exact hmu.childUpper _ _ hmem
      · intro w hweq
        rw [withWild_wildChild] at hweq
        have hw2 : w = insertNode (n.wildChild.getD wildNode) rest M h :=
          (Option.some.inj hweq).symm
        rw [hw2]
        refine ih _ ?_ M hM h
        cases hold : n.wildChild with
        | some w0 => exact hmu.wildUpper w0 hold
        | none => exact methodsUpper_leaf rfl rfl rfl
    · rw [if_neg h1]
      by_cases h2 : seg.head? = some ':'
      · rw [if_pos h2]
        cases hf : findParamChild n.children (seg.drop 1) with
        | some kc =>
          obtain ⟨k0, c0⟩ := kc
          obtain ⟨hm0, hip0, hpn0⟩ := findParamChild_mem hf
          exact methodsUpper_withChildren_mapSet hmu
            (ih c0 (hmu.childUpper _ _ hm0) M hM h)
        | none =>
          exact methodsUpper_withChildren_mapSet hmu
            (ih (paramNode seg) (methodsUpper_leaf rfl rfl rfl) M hM h)
      · rw [if_neg h2]
        cases hg : mapGet n.children seg with
        | some c0 =>
          exact methodsUpper_withChildren_mapSet hmu
            (ih c0 (hmu.childUpper _ _ (mem_of_mapGet_eq_some hg)) M hM h)
        | none =>
          exact methodsUpper_withChildren_mapSet hmu
            (ih (litNode seg) (methodsUpper_leaf rfl rfl rfl) M hM h)

theorem methodsUpper_buildFold :
    ∀ (rs : List Route) (n : Node), MethodsUpper n →
    (∀ r ∈ rs, upperStr r.method = r.method) →
    MethodsUpper (rs.foldl addRoute n) := by
  intro rs
  induction rs with
  | nil =>
    intro n hmu hall
    exact hmu
  | cons r rest ih =>
    intro n hmu hall
    rw [List.foldl_cons]
    refine ih _ ?_ (fun r2 hr2 => hall r2 (List.mem_cons_of_mem _ hr2))
    exact methodsUpper_insertNode (segsOf r.path) n hmu r.method
      (hall r (List.mem_cons_self _ _)) r.handler

theorem mapGet_none_of_upper_keys {α : Type} {l : List (Str × α)}
    (hk : ∀ k v, (k, v) ∈ l → upperStr k = k) {M : Str} (hM : ¬ upperStr M = M) :
    mapGet l M = none := by
  cases hg : mapGet l M with
  | none => rfl
  | some v => exact absurd (hk M v (mem_of_mapGet_eq_some hg)) hM

theorem paramFold_fst_none (f : Node → PathParams → Option Handler × PathParams)
    (seg : Str) :
    ∀ (cs : List (Str × Node)) (p : PathParams),
    (∀ kc ∈ cs, ∀ q, (f kc.2 q).1 = none) →
    (paramFold f seg cs p).1 = none := by
  intro cs
  induction cs with
  | nil =>
    intro p hall
    rfl
  | cons kc rest ih =>
    intro p hall
    obtain ⟨k, c⟩ := kc
    by_cases hip : c.isParam
    · have hf := hall (k, c) (List.mem_cons_self _ _) (mapSet p c.paramName seg)
      simp only [paramFold, hip, if_true]
      cases hfc : f c (mapSet p c.paramName seg) with
      | mk r1 p2 =>
        rw [hfc] at hf
        simp only at hf
        rw [hf]
        exact ih _ (fun kc2 hm => hall kc2 (List.mem_cons_of_mem _ hm))
    · simp only [paramFold, hip, if_false]
      exact ih _ (fun kc2 hm => hall kc2 (List.mem_cons_of_mem _ hm))

/-- A query method that is not its own uppercasing matches nothing anywhere
in a trie all of whose stored method keys are uppercased. -/
theorem matchNode_fst_none_of_methodsUpper :
    ∀ (ss : List Str) (n : Node), MethodsUpper n →
    ∀ (M : Str), ¬ upperStr M = M → ∀ (p : PathParams),
    (matchNode n ss M p).1 = none := by
  intro ss
  induction ss with
  | nil =>
    intro n hmu M hM p
    simp [matchNode, mapGet_none_of_upper_keys hmu.methodKey hM]
  | cons s rest ih =>
    intro n hmu M hM p
    have hexact : (match mapGet n.children s with
        | some c => matchNode c rest M p
        | none => (none, p)).1 = none := by
      cases hg : mapGet n.children s with
      | some c => exact ih c (hmu.childUpper _ _ (mem_of_mapGet_eq_some hg)) M hM p
      | none => rfl
    cases hex : (match mapGet n.children s with
        | some c => matchNode c rest M p
        | none => (none, p)) with
    | mk r1 p1 =>
      rw [hex] at hexact
      simp only at hexact
      rw [hexact] at hex
      have hpf : (paramFold (fun c q => matchNode c rest M q) s n.children p1).1 = none := by
        refine paramFold_fst_none _ s n.children p1 ?_
        intro kc hm q
        exact ih kc.2 (hmu.childUpper kc.1 kc.2 (by
          have : (kc.1, kc.2) = kc := rfl
          rw [this]
          exact hm)) M hM q
      cases hpf2 : paramFold (fun c q => matchNode c rest M q) s n.children p1 with
      | mk r2 p2 =>
        rw [hpf2] at hpf
        simp only at hpf
        rw [hpf] at hpf2
        cases hw : n.wildChild with
        | some w =>
          simp [matchNode, hex, hpf2, hw,
            mapGet_none_of_upper_keys (hmu.wildUpper w hw).methodKey hM]
        | none => simp [matchNode, hex, hpf2, hw]

/-- Claim C10 (amended): on the trie built from any route list, querying a
registered route with its original, not-all-uppercase method string yields
no handler — `AddRoute` stored the method uppercased and `Match` compares
exactly; querying with the uppercased method yields the registered handler
whenever the route's path is wildcard-free (with the most recently assigned
handler for that method and normalized path; wildcard routes can be
shadowed or unreachable, see the counterexample). -/
theorem method_case_asymmetry (rs : List Route)
    (r : Route) (hr : r ∈ rs) (hm : ¬ upperStr r.method = r.method) :
    (Match ⟨buildTrie (rs.map normRoute)⟩ r.method r.path).1 = none ∧
    (noStar (segsOf r.path) →
      ∃ h, lastHandlerFor rs (upperStr r.method) (segsOf r.path) = some h ∧
        (Match ⟨buildTrie (rs.map normRoute)⟩ (upperStr r.method) r.path).1 = some h) := by
  constructor
  · show (matchNode (buildTrie (rs.map normRoute)) (segsOf r.path) r.method []).1 = none
    refine matchNode_fst_none_of_methodsUpper (segsOf r.path) _ ?_ r.method hm []
    refine methodsUpper_buildFold (rs.map normRoute) emptyRoot
      (methodsUpper_leaf rfl rfl rfl) ?_
    intro r2 hr2
    obtain ⟨r0, hr0, rfl⟩ := List.mem_map.mp hr2
    exact upperStr_idem r0.method
  · intro hns
    exact match_returns_last_handler rs r hr hns

/-- Claim C10 (counterexample): register the route `/a/*/b` with method
string `get`; querying with `get` yields no handler, but querying with the
uppercased `GET` also yields no handler instead of the registered one — the
claim's second half fails on wildcard routes. -/
theorem upper_method_match_fails_on_wildcard_route :
    ¬ upperStr (str "get") = str "get" ∧
    (addRoutes NewRouterBuilder [⟨str "get", str "/a/*/b", 5⟩]).map
        (fun rb => (Build rb).1.map
          (fun r => ((Match r (str "get") (str "/a/*/b")).1,
                     (Match r (str "GET") (str "/a/*/b")).1))) =
      .ok (.ok (none, none)) := by
  refine ⟨by decide, by decide⟩

def rsW10 : List Route := [⟨str "get", str "/w", 6⟩]

/-- Witness for C10: the amended theorem applied to the route
(get, /w, handler 6). -/
theorem method_case_asymmetry_witness :
    (Match ⟨buildTrie (rsW10.map normRoute)⟩ (str "get") (str "/w")).1 = none ∧
    (noStar (segsOf (str "/w")) →
      ∃ h, lastHandlerFor rsW10 (upperStr (str "get")) (segsOf (str "/w")) = some h ∧
        (Match ⟨buildTrie (rsW10.map normRoute)⟩ (upperStr (str "get")) (str "/w")).1 =
          some h) :=
  method_case_asymmetry rsW10 ⟨str "get", str "/w", 6⟩ (by decide) (by decide)

/-! ### Claim C4: determinism under map iteration order -/

theorem NodeEquiv.methods_eq {n1 n2 : Node} (h : NodeEquiv n1 n2) :
    n1.methods = n2.methods := by
  cases h with
  | mk n1 n2 l hseg hmeth hpn hip hiw hnd1 hnd2 hperm hrel hw => exact hmeth

theorem NodeEquiv.isParam_eq {n1 n2 : Node} (h : NodeEquiv n1 n2) :
    n1.isParam = n2.isParam := by
  cases h with
  | mk n1 n2 l hseg hmeth hpn hip hiw hnd1 hnd2 hperm hrel hw => exact hip

theorem NodeEquiv.paramName_eq {n1 n2 : Node} (h : NodeEquiv n1 n2) :
    n1.paramName = n2.paramName := by
  cases h with
  | mk n1 n2 l hseg hmeth hpn hip hiw hnd1 hnd2 hperm hrel hw => exact hpn

theorem NodeEquiv.wild_rel {n1 n2 : Node} (h : NodeEquiv n1 n2) :
    WildRel n1.wildChild n2.wildChild := by
  cases h with
  | mk n1 n2 l hseg hmeth hpn hip hiw hnd1 hnd2 hperm hrel hw => exact hw

theorem NodeEquiv.children_spec {n1 n2 : Node} (h : NodeEquiv n1 n2) :
    ∃ l, n2.children.Perm l ∧ ChildrenRel n1.children l := by
  cases h with
  | mk n1 n2 l hseg hmeth hpn hip hiw hnd1 hnd2 hperm hrel hw => exact ⟨l, hperm, hrel⟩

theorem NodeEquiv.nodup2 {n1 n2 : Node} (h : NodeEquiv n1 n2) :
    (n2.children.map Prod.fst).Nodup := by
  cases h with
  | mk n1 n2 l hseg hmeth hpn hip hiw hnd1 hnd2 hperm hrel hw => exact hnd2

theorem wildRel_iff {o1 o2 : Option Node} (h : WildRel o1 o2) :
    (o1 = none ∧ o2 = none) ∨
    (∃ w1 w2, o1 = some w1 ∧ o2 = some w2 ∧ NodeEquiv w1 w2) := by
  cases h with
  | none => exact Or.inl ⟨rfl, rfl⟩
  | some he => exact Or.inr ⟨_, _, rfl, rfl, he⟩

theorem childrenRel_nil_inv {l2 : List (Str × Node)} (h : ChildrenRel [] l2) :
    l2 = [] := by
  cases h
  rfl

theorem childrenRel_cons_inv {k1 : Str} {c1 : Node} {t1 l2 : List (Str × Node)}
    (h : ChildrenRel ((k1, c1) :: t1) l2) :
    ∃ k2 c2 t2, l2 = (k2, c2) :: t2 ∧ k1 = k2 ∧ NodeEquiv c1 c2 ∧ ChildrenRel t1 t2 := by
  cases h with
  | cons hk he hr => exact ⟨_, _, _, rfl, hk, he, hr⟩

theorem ParamOk.count {n : Node} (h : ParamOk n) :
    (n.children.filter (fun kc => kc.2.isParam)).length ≤ 1 := by
  cases h with
  | mk n hcount hch hw => exact hcount

theorem ParamOk.childOk {n : Node} (h : ParamOk n) :
    ∀ k c, (k, c) ∈ n.children → ParamOk c := by
  cases h with
  | mk n hcount hch hw => exact hch

theorem ParamOk.childWild {n : Node} (h : ParamOk n) :
    ∀ w, n.wildChild = some w → ParamOk w := by
  cases h with
  | mk n hcount hch hw => exact hw

theorem paramOk_leaf {n : Node} (hc : n.children = []) (hw : n.wildChild = none) :
    ParamOk n := by
  refine ParamOk.mk _ ?_ ?_ ?_
  · rw [hc]
    simp
  · intro k c hm
    rw [hc] at hm
    exact absurd hm (List.not_mem_nil _)
  · intro w hweq
    rw [hw] at hweq
    exact absurd hweq (by simp)

theorem childrenRel_length :
    ∀ {l1 l2 : List (Str × Node)}, ChildrenRel l1 l2 → l1.length = l2.length := by
  intro l1
  induction l1 with
  | nil =>
    intro l2 h
    rw [childrenRel_nil_inv h]
  | cons kc t1 ih =>
    intro l2 h
    obtain ⟨k1, c1⟩ := kc
    obtain ⟨k2, c2, t2, rfl, hk, he, hr⟩ := childrenRel_cons_inv h
    simp [ih hr]

theorem childrenRel_mapGet :
    ∀ {l1 l2 : List (Str × Node)}, ChildrenRel l1 l2 → ∀ (s : Str),
    (mapGet l1 s = none ∧ mapGet l2 s = none) ∨
    (∃ c1 c2, mapGet l1 s = some c1 ∧ mapGet l2 s = some c2 ∧ NodeEquiv c1 c2) := by
  intro l1
  induction l1 with
  | nil =>
    intro l2 h s
    rw [childrenRel_nil_inv h]
    exact Or.inl ⟨rfl, rfl⟩
  | cons kc t1 ih =>
    intro l2 h s
    obtain ⟨k1, c1⟩ := kc
    obtain ⟨k2, c2, t2, rfl, hk, he, hr⟩ := childrenRel_cons_inv h
    subst hk
    by_cases hks : k1 = s
    · exact Or.inr ⟨c1, c2, by rw [mapGet, if_pos hks], by rw [mapGet, if_pos hks], he⟩
    · rcases ih hr s with ⟨h1, h2⟩ | ⟨d1, d2, h1, h2, hd⟩
      · exact Or.inl ⟨by rw [mapGet, if_neg hks]; exact h1,
          by rw [mapGet, if_neg hks]; exact h2⟩
      · exact Or.inr ⟨d1, d2, by rw [mapGet, if_neg hks]; exact h1,
          by rw [mapGet, if_neg hks]; exact h2, hd⟩

theorem mapGet_perm {α : Type} {l1 l2 : List (Str × α)} (hp : l1.Perm l2)
    (hnd : (l1.map Prod.fst).Nodup) (s : Str) : mapGet l1 s = mapGet l2 s := by
  induction hp with
  | nil => rfl
  | @cons x t1 t2 hp2 ih =>
    obtain ⟨k, v⟩ := x
    rw [List.map_cons, List.nodup_cons] at hnd
    by_cases hks : k = s
    · rw [mapGet, if_pos hks, mapGet, if_pos hks]
    · rw [mapGet, if_neg hks, mapGet, if_neg hks]
      exact ih hnd.2
  | @swap x y t =>
    obtain ⟨kx, vx⟩ := x
    obtain ⟨ky, vy⟩ := y
    rw [List.map_cons, List.map_cons, List.nodup_cons] at hnd
    have hxy : ¬ ky = kx := fun hq => hnd.1 (by rw [hq]; exact List.mem_cons_self _ _)
    by_cases hkx : kx = s
    · rw [mapGet, if_neg (fun hq => hxy (hq.trans hkx.symm)), mapGet, if_pos hkx,
        mapGet, if_pos hkx]
    · by_cases hky : ky = s
      · rw [mapGet, if_pos hky, mapGet, if_neg hkx, mapGet, if_pos hky]
      · rw [mapGet, if_neg hky, mapGet, if_neg hkx, mapGet, if_neg hkx, mapGet, if_neg hky]
  | @trans t1 t2 t3 hp1 hp2 ih1 ih2 =>
    refine (ih1 hnd).trans (ih2 ?_)
    exact (hp1.map Prod.fst).nodup hnd

theorem perm_eq_of_length_le_one {α : Type} {l1 l2 : List α} (hp : l1.Perm l2)
    (hlen : l1.length ≤ 1) : l1 = l2 := by
  cases l1 with
  | nil => exact (hp.symm.eq_nil).symm
  | cons a t =>
    cases t with
    | nil => exact List.singleton_perm.mp hp
    | cons b t2 => simp at hlen

theorem childrenRel_filter :
    ∀ {l1 l2 : List (Str × Node)}, ChildrenRel l1 l2 →
    ChildrenRel (l1.filter (fun kc => kc.2.isParam))
      (l2.filter (fun kc => kc.2.isParam)) := by
  intro l1
  induction l1 with
  | nil =>
    intro l2 h
    rw [childrenRel_nil_inv h]
    exact ChildrenRel.nil
  | cons kc t1 ih =>
    intro l2 h
    obtain ⟨k1, c1⟩ := kc
    obtain ⟨k2, c2, t2, rfl, hk, he, hr⟩ := childrenRel_cons_inv h
    rw [List.filter_cons, List.filter_cons]
    have hip : c2.isParam = c1.isParam := he.isParam_eq.symm
    simp only [hip]
    by_cases hq : c1.isParam
    · simp only [hq, if_pos]
      exact ChildrenRel.cons hk he (ih hr)
    · simp only [hq, Bool.false_eq_true, if_neg, not_false_iff]
      exact ih hr

theorem paramFold_eq_filter (f : Node → PathParams → Option Handler × PathParams)
    (seg : Str) :
    ∀ (l : List (Str × Node)) (p : PathParams),
    paramFold f seg l p = paramFold f seg (l.filter (fun kc => kc.2.isParam)) p := by
  intro l
  induction l with
  | nil =>
    intro p
    rfl
  | cons kc rest ih =>
    intro p
    obtain ⟨k, c⟩ := kc
    rw [List.filter_cons]
    by_cases hip : c.isParam
    · simp only [hip, if_pos]
      rw [paramFold, if_pos hip, paramFold, if_pos hip]
      cases f c (mapSet p c.paramName seg) with
      | mk r1 p2 =>
        cases r1 with
        | some h => rfl
        | none => exact ih (mapDel p2 c.paramName)
    · simp only [hip, Bool.false_eq_true, if_neg, not_false_iff]
      rw [paramFold, if_neg hip]
      exact ih p

theorem paramFold_childrenRel
    (f1 f2 : Node → PathParams → Option Handler × PathParams) (seg : Str) :
    ∀ {l1 l2 : List (Str × Node)}, ChildrenRel l1 l2 →
    (∀ k1 c1, (k1, c1) ∈ l1 → ∀ c2, NodeEquiv c1 c2 → ∀ q, f1 c1 q = f2 c2 q) →
    ∀ p, paramFold f1 seg l1 p = paramFold f2 seg l2 p := by
  intro l1
  induction l1 with
  | nil =>
    intro l2 h hpt p
    rw [childrenRel_nil_inv h]
    rfl
  | cons kc t1 ih =>
    intro l2 h hpt p
    obtain ⟨k1, c1⟩ := kc
    obtain ⟨k2, c2, t2, rfl, hk, he, hr⟩ := childrenRel_cons_inv h
    have hip : c1.isParam = c2.isParam := he.isParam_eq
    have hpn : c1.paramName = c2.paramName := he.paramName_eq
    have hf : ∀ q, f1 c1 q = f2 c2 q := hpt k1 c1 (List.mem_cons_self _ _) c2 he
    have hpt2 : ∀ k0 c0, (k0, c0) ∈ t1 → ∀ c3, NodeEquiv c0 c3 → ∀ q, f1 c0 q = f2 c3 q :=
      fun k0 c0 hm c3 he2 q => hpt k0 c0 (List.mem_cons_of_mem _ hm) c3 he2 q
    by_cases hq : c1.isParam
    · rw [paramFold, if_pos hq, paramFold, if_pos (hip ▸ hq), ← hpn,
        ← hf (mapSet p c1.paramName seg)]
      cases f1 c1 (mapSet p c1.paramName seg) with
      | mk r1 p2 =>
        cases r1 with
        | some h2 => rfl
        | none => exact ih hr hpt2 (mapDel p2 c1.paramName)
    · rw [paramFold, if_neg hq, paramFold, if_neg (hip ▸ hq)]
      exact ih hr hpt2 p

/-- Matching is invariant under the children-map iteration order whenever
every node of the (left) trie owns at most one parameter child. -/
theorem matchNode_equiv :
    ∀ (ss : List Str) (n1 n2 : Node), NodeEquiv n1 n2 → ParamOk n1 →
    ∀ (M : Str) (p : PathParams), matchNode n1 ss M p = matchNode n2 ss M p := by
  intro ss
  induction ss with
  | nil =>
    intro n1 n2 hequiv hok M p
    simp [matchNode, hequiv.methods_eq]
  | cons s rest ih =>
    intro n1 n2 hequiv hok M p
    obtain ⟨l, hperm, hrel⟩ := hequiv.children_spec
    have hlookup : mapGet n2.children s = mapGet l s := mapGet_perm hperm hequiv.nodup2 s
    have hpf : ∀ q, paramFold (fun c q2 => matchNode c rest M q2) s n1.children q =
        paramFold (fun c q2 => matchNode c rest M q2) s n2.children q := by
      intro q
      rw [paramFold_eq_filter _ s n1.children q, paramFold_eq_filter _ s n2.children q]
      have hfil2 : n2.children.filter (fun kc => kc.2.isParam) =
          l.filter (fun kc => kc.2.isParam) := by
        refine perm_eq_of_length_le_one (hperm.filter _) ?_
        have hl1 : (l.filter (fun kc => kc.2.isParam)).length =
            (n1.children.filter (fun kc => kc.2.isParam)).length :=
          (childrenRel_length (childrenRel_filter hrel)).symm
        have hp2 : (n2.children.filter (fun kc => kc.2.isParam)).length =
            (l.filter (fun kc => kc.2.isParam)).length :=
          (hperm.filter _).length_eq
        rw [hp2, hl1]
        exact hok.count
      rw [hfil2]
      refine paramFold_childrenRel _ _ s (childrenRel_filter hrel) ?_ q
      intro k1 c1 hm c2 he q2
      have hm2 : (k1, c1) ∈ n1.children := List.mem_of_mem_filter hm
      exact ih c1 c2 he (hok.childOk _ _ hm2) M q2
    rcases childrenRel_mapGet hrel s with ⟨hg1, hgl⟩ | ⟨c1, c2, hg1, hgl, hcequiv⟩
    · have hg2 : mapGet n2.children s = none := hlookup.trans hgl
      rw [matchNode, matchNode]
      simp only [hg1, hg2]
      rw [hpf p]
      cases hpr : paramFold (fun c q2 => matchNode c rest M q2) s n2.children p with
      | mk r2 p2 =>
        cases r2 with
        | some h => simp
        | none =>
          rcases wildRel_iff hequiv.wild_rel with ⟨hw1, hw2⟩ | ⟨w1, w2, hw1, hw2, hwe⟩
          · simp [hw1, hw2]
          · simp [hw1, hw2, hwe.methods_eq]
    · have hg2 : mapGet n2.children s = some c2 := hlookup.trans hgl
      have hc1mem : (s, c1) ∈ n1.children := mem_of_mapGet_eq_some hg1
      have hrec : matchNode c1 rest M p = matchNode c2 rest M p :=
        ih c1 c2 hcequiv (hok.childOk _ _ hc1mem) M p
      rw [matchNode, matchNode]
      simp only [hg1, hg2]
      rw [hrec]
      cases hmc : matchNode c2 rest M p with
      | mk r1 p1 =>
        cases r1 with
        | some h => simp
        | none =>
          simp only
          rw [hpf p1]
          cases hpr : paramFold (fun c q2 => matchNode c rest M q2) s n2.children p1 with
          | mk r2 p2 =>
            cases r2 with
            | some h => simp
            | none =>
              rcases wildRel_iff hequiv.wild_rel with ⟨hw1, hw2⟩ | ⟨w1, w2, hw1, hw2, hwe⟩
              · simp [hw1, hw2]
              · simp [hw1, hw2, hwe.methods_eq]

/-- Claim C4 (amended): two views of one built router that hold the same
maps at every node — differing only in the order the children maps happen
to be enumerated, which is what repeated Go map iteration can produce —
return identical handlers and identical bindings for every query, provided
every node owns at most one parameter child.  (With several differently
named parameter children under one parent the result genuinely depends on
the iteration order: see the counterexample.) -/
theorem match_deterministic_of_single_param_child (r1 r2 : Router)
    (hequiv : NodeEquiv r1.root r2.root) (hok : ParamOk r1.root)
    (M p : Str) : Match r1 M p = Match r2 M p :=
  matchNode_equiv (segsOf p) r1.root r2.root hequiv hok M []

def c4leafX : Node := .mk (str "b") [(str "GET", 1)] [] (str "") false false none

def c4leafY : Node := .mk (str "b") [(str "GET", 2)] [] (str "") false false none

def c4nodeX : Node := .mk (str ":x") [] [(str "b", c4leafX)] (str "x") true false none

def c4nodeY : Node := .mk (str ":y") [] [(str "b", c4leafY)] (str "y") true false none

def c4A1 : Node :=
  .mk (str "a") [] [(str ":x", c4nodeX), (str ":y", c4nodeY)] (str "") false false none

def c4A2 : Node :=
  .mk (str "a") [] [(str ":y", c4nodeY), (str ":x", c4nodeX)] (str "") false false none

def c4t1 : Node := .mk (str "") [] [(str "a", c4A1)] (str "") false false none

def c4t2 : Node := .mk (str "") [] [(str "a", c4A2)] (str "") false false none

theorem c4_leafX_equiv_self : NodeEquiv c4leafX c4leafX :=
  NodeEquiv.mk _ _ [] rfl rfl rfl rfl rfl (by decide) (by decide)
    (List.Perm.refl _) ChildrenRel.nil WildRel.none

theorem c4_leafY_equiv_self : NodeEquiv c4leafY c4leafY :=
  NodeEquiv.mk _ _ [] rfl rfl rfl rfl rfl (by decide) (by decide)
    (List.Perm.refl _) ChildrenRel.nil WildRel.none

theorem c4_nodeX_equiv_self : NodeEquiv c4nodeX c4nodeX :=
  NodeEquiv.mk _ _ [(str "b", c4leafX)] rfl rfl rfl rfl rfl (by decide) (by decide)
    (List.Perm.refl _) (ChildrenRel.cons rfl c4_leafX_equiv_self ChildrenRel.nil)
    WildRel.none

theorem c4_nodeY_equiv_self : NodeEquiv c4nodeY c4nodeY :=
  NodeEquiv.mk _ _ [(str "b", c4leafY)] rfl rfl rfl rfl rfl (by decide) (by decide)
    (List.Perm.refl _) (ChildrenRel.cons rfl c4_leafY_equiv_self ChildrenRel.nil)
    WildRel.none

theorem c4_mid_equiv : NodeEquiv c4A1 c4A2 :=
  NodeEquiv.mk _ _ [(str ":x", c4nodeX), (str ":y", c4nodeY)] rfl rfl rfl rfl rfl
    (by decide) (by decide)
    (List.Perm.swap (str ":x", c4nodeX) (str ":y", c4nodeY) [])
    (ChildrenRel.cons rfl c4_nodeX_equiv_self
      (ChildrenRel.cons rfl c4_nodeY_equiv_self ChildrenRel.nil))
    WildRel.none

theorem c4_root_equiv : NodeEquiv c4t1 c4t2 :=
  NodeEquiv.mk _ _ [(str "a", c4A2)] rfl rfl rfl rfl rfl (by decide) (by decide)
    (List.Perm.refl _) (ChildrenRel.cons rfl c4_mid_equiv ChildrenRel.nil)
    WildRel.none

/-- Claim C4 (counterexample): `Build` on the ordered routes `GET /a/:x/b`
(handler 1) and `GET /a/:y/b` (handler 2) produces the trie `c4t1`; `c4t2`
holds the same Go maps with the two parameter children of node `a`
enumerated in the other order, as Go map iteration may do on the same
router.  The two views answer the query `GET /a/v/b` with different
handlers, so matching on a trie with several differently-named parameter
children under one parent is not deterministic. -/
theorem match_depends_on_children_order :
    (Build ⟨[⟨str "GET", str "/a/:x/b", 1⟩, ⟨str "GET", str "/a/:y/b", 2⟩], false⟩).1 =
      .ok ⟨c4t1⟩ ∧
    NodeEquiv c4t1 c4t2 ∧
    (Match ⟨c4t1⟩ (str "GET") (str "/a/v/b")).1 = some 1 ∧
    (Match ⟨c4t2⟩ (str "GET") (str "/a/v/b")).1 = some 2 :=
  ⟨rfl, c4_root_equiv, by decide, by decide⟩

def c4wA : Node := .mk (str "a") [(str "GET", 1)] [] (str "") false false none

def c4wB : Node := .mk (str "b") [(str "GET", 2)] [] (str "") false false none

def c4wP : Node := .mk (str ":id") [(str "GET", 3)] [] (str "id") true false none

def c4wU : Node := .mk (str "u") [] [(str ":id", c4wP)] (str "") false false none

def c4w1 : Node :=
  .mk (str "") [] [(str "a", c4wA), (str "b", c4wB), (str "u", c4wU)] (str "")
    false false none

def c4w2 : Node :=
  .mk (str "") [] [(str "b", c4wB), (str "a", c4wA), (str "u", c4wU)] (str "")
    false false none

theorem c4w_equiv : NodeEquiv c4w1 c4w2 := by
  refine NodeEquiv.mk _ _ [(str "a", c4wA), (str "b", c4wB), (str "u", c4wU)]
    rfl rfl rfl rfl rfl (by decide) (by decide)
    (List.Perm.swap (str "a", c4wA) (str "b", c4wB) [(str "u", c4wU)]) ?_ WildRel.none
  refine ChildrenRel.cons rfl ?_ (ChildrenRel.cons rfl ?_ (ChildrenRel.cons rfl ?_
    ChildrenRel.nil))
  · exact NodeEquiv.mk _ _ [] rfl rfl rfl rfl rfl (by decide) (by decide)
      (List.Perm.refl _) ChildrenRel.nil WildRel.none
  · exact NodeEquiv.mk _ _ [] rfl rfl rfl rfl rfl (by decide) (by decide)
      (List.Perm.refl _) ChildrenRel.nil WildRel.none
  · refine NodeEquiv.mk _ _ [(str ":id", c4wP)] rfl rfl rfl rfl rfl (by decide)
      (by decide) (List.Perm.refl _) (ChildrenRel.cons rfl ?_ ChildrenRel.nil)
      WildRel.none
    exact NodeEquiv.mk _ _ [] rfl rfl rfl rfl rfl (by decide) (by decide)
      (List.Perm.refl _) ChildrenRel.nil WildRel.none

theorem c4w1_paramOk : ParamOk c4w1 := by
  refine ParamOk.mk _ (by decide) ?_ ?_
  · intro k c hm
    simp only [c4w1, children_mk, List.mem_cons, List.not_mem_nil, or_false,
      Prod.mk.injEq] at hm
    rcases hm with ⟨rfl, rfl⟩ | ⟨rfl, rfl⟩ | ⟨rfl, rfl⟩
    · exact paramOk_leaf rfl rfl
    · exact paramOk_leaf rfl rfl
    · refine ParamOk.mk _ (by decide) ?_ ?_
      · intro k2 c2 hm2
        simp only [c4wU, children_mk, List.mem_cons, List.not_mem_nil, or_false,
          Prod.mk.injEq] at hm2
        obtain ⟨rfl, rfl⟩ := hm2
        exact paramOk_leaf rfl rfl
      · intro w hweq
        exact absurd hweq (by simp [c4wU])
  · intro w hweq
    exact absurd hweq (by simp [c4w1])

/-- Witness for C4: the amended determinism theorem applied to two concrete
map-equal views of a three-route router. -/
theorem match_deterministic_of_single_param_child_witness :
    Match ⟨c4w1⟩ (str "GET") (str "/u/9") = Match ⟨c4w2⟩ (str "GET") (str "/u/9") :=
  match_deterministic_of_single_param_child ⟨c4w1⟩ ⟨c4w2⟩ c4w_equiv c4w1_paramOk
    (str "GET") (str "/u/9")

end FastRouter